import Mathlib

/-!
# Verification of the AuToGraFS geometric assembly engine

Shallow embedding of `src/autografs.py` (class `Autografs`: `make`,
`get_sbu_dict`, `align`, `tag`, `list_available_sbu`) and machine-checked
proofs about its geometric assembly behavior.

Modelling conventions:

* 3-vectors are `Vec3 := Fin 3 → ℚ`; atom arrays (`ase.Atoms`) are ordered
  lists of `PyAtom` records (element symbol, position, integer tag).
* The code computes Euclidean norms (`numpy.linalg.norm`), i.e. a real square
  root.  To keep the embedding executable over `ℚ` every definition takes an
  explicit square-root function `sqrtFn : ℚ → ℚ` and applies it to squared
  norms, exactly where the code applies `numpy.linalg.norm`.  Theorems that
  depend on properties of the square root state them as hypotheses
  (monotonicity, or exactness on the values actually occurring), which concrete
  witnesses discharge.
* Fallible numpy/scipy operations are modelled with `Except PyErr`:
  broadcasting failures of elementwise division raise `ValueError`', the
  `check_finite` validation and the shape check inside
  `scipy.linalg.orthogonal_procrustes` raise `ValueError` (in that order, as
  in the scipy source), `numpy.argmin` on an empty array raises `ValueError`,
  `random.choice` on an empty list raises `IndexError`, dict lookups raise
  `KeyError`.
  `numpy.mean` of an empty array and division by zero are NOT errors in numpy
  (they only emit warnings and produce nan/inf); the model uses the
  `0`-convention of rational division for the values there, mirroring that
  the code continues executing, and separately records WHERE float semantics
  would have produced non-finite values (`broadcastDivNonFinite`,
  `scaleNonFinite`), because scipy's `check_finite = True` default rejects
  exactly those values when the point sets reach `orthogonal_procrustes`.
* The SVD step of `scipy.linalg.orthogonal_procrustes` (which returns
  `R = U·Vᵀ` for `M = X0ᵀ·X1 = U·Σ·Vᵀ`) is modelled relationally by its
  standard characterization: `R` is orthogonal and maximizes
  `trace (Mᵀ·Q)` over orthogonal `Q`.
* The mutation discipline of `align` (copy first, then mutate only the
  copies) is modelled by a small store (`Heap`) of atom lists with explicit
  reads, writes and allocations, used for the frame-effect claim.
* Classes that the file imports from modules not present under `src/`
  (`SBU`, `Topology`, `Framework`, `analyze_mm`, `random.choice`) are
  modelled from the spec; their definitions carry a `Modelled from the spec:`
  note and are parameters wherever the spec leaves them opaque.
-/

deriving instance DecidableEq for Except

namespace Autografs

/-- Python / numpy / scipy exception classes that the embedded code can raise. -/
inductive PyErr where
  | valueError
  | indexError
  | keyError
  | nameError
  deriving DecidableEq, Repr

/-- A 3-component vector of rationals (one row of a numpy `(n,3)` array). -/
structure Vec3 where
  x : ℚ
  y : ℚ
  z : ℚ
  deriving DecidableEq, Repr

instance : Add Vec3 := ⟨fun a b => ⟨a.x + b.x, a.y + b.y, a.z + b.z⟩⟩
instance : Sub Vec3 := ⟨fun a b => ⟨a.x - b.x, a.y - b.y, a.z - b.z⟩⟩
instance : Zero Vec3 := ⟨⟨0, 0, 0⟩⟩
instance : SMul ℚ Vec3 := ⟨fun c v => ⟨c * v.x, c * v.y, c * v.z⟩⟩

theorem Vec3.add_def (a b : Vec3) :
    a + b = ⟨a.x + b.x, a.y + b.y, a.z + b.z⟩ := rfl

theorem Vec3.zero_def : (0 : Vec3) = ⟨0, 0, 0⟩ := rfl

instance : AddCommMonoid Vec3 where
  add_assoc a b c := by
    cases a; cases b; cases c
    simp only [Vec3.add_def, Vec3.mk.injEq]
    refine ⟨?_, ?_, ?_⟩ <;> ring
  zero_add a := by
    cases a
    simp only [Vec3.add_def, Vec3.zero_def, Vec3.mk.injEq]
    refine ⟨?_, ?_, ?_⟩ <;> ring
  add_zero a := by
    cases a
    simp only [Vec3.add_def, Vec3.zero_def, Vec3.mk.injEq]
    refine ⟨?_, ?_, ?_⟩ <;> ring
  add_comm a b := by
    cases a; cases b
    simp only [Vec3.add_def, Vec3.mk.injEq]
    refine ⟨?_, ?_, ?_⟩ <;> ring
  nsmul := nsmulRec

/-- The components of a 3-vector as a `Fin 3`-indexed family (used to form
the Procrustes data matrix). -/
def Vec3.nth (v : Vec3) : Fin 3 → ℚ := ![v.x, v.y, v.z]

/-- Squared Euclidean norm of a 3-vector. -/
def sqnorm (v : Vec3) : ℚ := v.x * v.x + v.y * v.y + v.z * v.z

/-- `numpy.linalg.norm` of one 3-vector, with the square root abstracted:
`normF sqrtFn v = sqrtFn (‖v‖²)`. -/
def normF (sqrtFn : ℚ → ℚ) (v : Vec3) : ℚ := sqrtFn (sqnorm v)

/-- One atom of an `ase.Atoms` object: element symbol, position, tag. -/
structure PyAtom where
  symbol : String
  pos : Vec3
  tag : Int
  deriving DecidableEq

/-- Default atom used only to give `List.getD` a junk value. -/
def dfltAtom : PyAtom := { symbol := "", pos := 0, tag := 0 }

/-- Mean of a list of rationals (`numpy.mean`).  On the empty list numpy
produces `nan` (with a warning, not an exception); the model returns `0`
there via the `0`-convention of rational division. -/
def mean (l : List ℚ) : ℚ := l.sum / (l.length : ℚ)

/-- Centroid (`positions.mean(axis=0)`) of a list of 3-vectors.  Empty input
gives numpy `nan` without raising; the model gives the zero vector. -/
def centroid (ps : List Vec3) : Vec3 := ((ps.length : ℚ))⁻¹ • ps.sum

/-- Elementwise division of two 1-d numpy arrays, with numpy's broadcasting
rule: lengths must be equal or one of them must be `1`, otherwise a
`ValueError` is raised.  Division by zero does NOT raise (numpy emits a
warning and yields inf/nan; the model yields `0`). -/
def broadcastDiv (a b : List ℚ) : Except PyErr (List ℚ) :=
  if a.length = b.length then .ok (List.zipWith (· / ·) a b)
  else if a.length = 1 then .ok (b.map (fun bi => a.headD 0 / bi))
  else if b.length = 1 then .ok (a.map (fun ai => ai / b.headD 0))
  else .error .valueError

/-- Whether the elementwise division `a / b` (broadcast as in
`broadcastDiv`) produces a non-finite entry (`inf`/`nan`) in floating-point
semantics: exactly when some entry is divided by a zero denominator (the
numerators here are norms, hence nonnegative, so a zero denominator gives
`inf` or `nan`, both non-finite).  numpy only warns and keeps going. -/
def broadcastDivNonFinite (a b : List ℚ) : Bool :=
  if a.length = b.length then b.any (fun bi => bi = 0)
  else if a.length = 1 then b.any (fun bi => bi = 0)
  else if b.length = 1 then (!a.isEmpty) && decide (b.headD 0 = 0)
  else false

/-- `numpy.argmin` of a list: the index of the first-encountered minimum
(ties are broken towards the smaller index).  The value on the empty list is
irrelevant: `numpy.argmin` of an empty array raises, which the caller `tag`
models explicitly. -/
def argminIdx : List ℚ → Nat
  | [] => 0
  | [_] => 0
  | d :: rest =>
    if rest.getD (argminIdx rest) 0 < d then argminIdx rest + 1 else 0

/-- `Autografs.tag`, lines 163–175: for each atom whose symbol is `"X"`,
compute the distances from every fragment position to the atom
(`numpy.linalg.norm(pf - ps, axis=1)`), and copy the tag of the fragment atom
at the `argmin` onto the dummy.  Other atoms are untouched.  If a dummy
exists while the fragment is empty, `numpy.argmin` raises `ValueError`. -/
def tagAtom (sqrtFn : ℚ → ℚ) (fragment : List PyAtom) (a : PyAtom) :
    Except PyErr PyAtom :=
  if a.symbol ≠ "X" then .ok a
  else
    match fragment with
    | [] => .error .valueError
    | _ :: _ =>
      let d := fragment.map (fun fa => normF sqrtFn (fa.pos - a.pos))
      .ok { a with tag := (fragment.getD (argminIdx d) dfltAtom).tag }

/-- `Autografs.tag` over a whole atom list (the python `for atom in sbu` loop,
mutating the dummies' tags in place; modelled as producing the post-loop
list). -/
def tag (sqrtFn : ℚ → ℚ) (sbu fragment : List PyAtom) :
    Except PyErr (List PyAtom) :=
  sbu.mapM (tagAtom sqrtFn fragment)

/-- A 3×3 rational matrix (used for the rotation actually applied to the
positions, `sbu.positions.dot(R)`). -/
abbrev Mat3Q := Matrix (Fin 3) (Fin 3) ℚ

/-- One row of `positions.dot(R)`: the row vector times the matrix. -/
def rowMul (v : Vec3) (R : Mat3Q) : Vec3 :=
  ⟨v.x * R 0 0 + v.y * R 1 0 + v.z * R 2 0,
   v.x * R 0 1 + v.y * R 1 1 + v.z * R 2 1,
   v.x * R 0 2 + v.y * R 1 2 + v.z * R 2 2⟩

/-- One row of `positions.dot(numpy.eye(3)*alpha)`: each axis of `v`
multiplied by the corresponding component of the scale vector. -/
def axisScale (v alpha : Vec3) : Vec3 :=
  ⟨v.x * alpha.x, v.y * alpha.y, v.z * alpha.z⟩

/-- The all-ones vector `numpy.ones(3)`. -/
def onesVec : Vec3 := ⟨1, 1, 1⟩

/-- The deterministic preprocessing of `Autografs.align`, lines 131–140:
copy, record the fragment's centre of positions, centre both objects, and
slice out the dummy (`"X"`) atoms of the sbu. -/
structure AlignPrep where
  fragment_cop : Vec3
  fragC : List PyAtom
  sbuC : List PyAtom
  sbu_X : List PyAtom

/-- Lines 131–140 of `align`. -/
def alignPrep (fragment sbu : List PyAtom) : AlignPrep :=
  let fragment_cop := centroid (fragment.map (·.pos))
  let fragC := fragment.map (fun a => { a with pos := a.pos - fragment_cop })
  let sbu_cop := centroid (sbu.map (·.pos))
  let sbuC := sbu.map (fun a => { a with pos := a.pos - sbu_cop })
  { fragment_cop := fragment_cop
    fragC := fragC
    sbuC := sbuC
    sbu_X := sbuC.filter (fun a => a.symbol = "X") }

/-- Lines 142–151 of `align`: the anisotropic scale vector.
`alpha = 2 * mean(‖sbu_X‖ / ‖fragment‖)` (elementwise broadcast division,
which can raise) times a direction: the normalized all-ones vector when the
fragment's centre of positions has norm `< 1e-6`, the normalized centre of
positions otherwise. -/
def alignAlphaE (sqrtFn : ℚ → ℚ) (fragment sbu : List PyAtom) :
    Except PyErr Vec3 :=
  let p := alignPrep fragment sbu
  let size_sbu := p.sbu_X.map (fun a => normF sqrtFn a.pos)
  let size_fragment := p.fragC.map (fun a => normF sqrtFn a.pos)
  match broadcastDiv size_sbu size_fragment with
  | .error e => .error e
  | .ok ratios =>
    let alpha : ℚ := 2 * mean ratios
    let ncop := normF sqrtFn p.fragment_cop
    let direction : Vec3 :=
      if ncop < 1 / 1000000 then (normF sqrtFn onesVec)⁻¹ • onesVec
      else ncop⁻¹ • p.fragment_cop
    .ok (alpha • direction)

/-- Whether the scale computation of lines 142–151 produces non-finite
values (`inf`/`nan`) in floating-point semantics: exactly when the
elementwise size division `size_sbu / size_fragment` uses a zero denominator,
or when the mean is taken over an empty ratio list (`numpy.mean([]) = nan`).
numpy only warns in both cases and execution continues; the resulting
non-finite scalar makes every component of the scale vector non-finite
(the direction is a finite unit vector, and `inf·0 = nan`), so every entry of
the scaled fragment positions `X1` is non-finite as soon as the fragment is
nonempty.  This predicate is what the `check_finite` validation of
`scipy.linalg.orthogonal_procrustes` detects on `X1` (line 157). -/
def scaleNonFinite (sqrtFn : ℚ → ℚ) (fragment sbu : List PyAtom) : Bool :=
  let p := alignPrep fragment sbu
  let size_sbu := p.sbu_X.map (fun a => normF sqrtFn a.pos)
  let size_fragment := p.fragC.map (fun a => normF sqrtFn a.pos)
  broadcastDivNonFinite size_sbu size_fragment ||
    (match broadcastDiv size_sbu size_fragment with
     | .ok ratios => ratios.isEmpty
     | .error _ => false)

/-- The two point sets handed to `scipy.linalg.orthogonal_procrustes`
(lines 152–156): `X0` is the centred dummy positions of the sbu, `X1` the
centred fragment positions after the anisotropic scaling
`fragment.positions.dot(numpy.eye(3)*alpha)` (each axis multiplied by the
corresponding component of the scale vector). -/
def alignX0X1 (sqrtFn : ℚ → ℚ) (fragment sbu : List PyAtom) :
    Except PyErr (List Vec3 × List Vec3) :=
  let p := alignPrep fragment sbu
  match alignAlphaE sqrtFn fragment sbu with
  | .error e => .error e
  | .ok alpha =>
    .ok (p.sbu_X.map (·.pos),
         p.fragC.map (fun a => axisScale a.pos alpha))

/-- `Autografs.align`, lines 119–161.  The rotation returned by
`scipy.linalg.orthogonal_procrustes` is taken as the parameter `R` (scipy
computes it from the SVD of `X0ᵀ·X1`; the relational characterization
`IsProcrustesSol` below ties `R` to the data where a claim needs it).
scipy first runs its default `check_finite = True` validation
(`numpy.asarray_chkfinite` on both arrays) and raises `ValueError` when an
input contains `inf`/`nan` — here `X0` is always finite and `X1` contains
non-finite entries exactly when `scaleNonFinite` holds and the fragment is
nonempty; scipy then checks that the two input arrays have equal shape and
raises `ValueError` otherwise; then the rotation is applied to ALL positions
of the sbu (`sbu.positions.dot(R)`), tags are transferred, and the rotated
sbu and the scale vector are returned. -/
def align (sqrtFn : ℚ → ℚ) (R : Mat3Q) (fragment sbu : List PyAtom) :
    Except PyErr (List PyAtom × Vec3) :=
  let p := alignPrep fragment sbu
  match alignAlphaE sqrtFn fragment sbu with
  | .error e => .error e
  | .ok alpha =>
    let fragS := p.fragC.map (fun a => { a with pos := axisScale a.pos alpha })
    let X0 := p.sbu_X.map (·.pos)
    let X1 := fragS.map (·.pos)
    if scaleNonFinite sqrtFn fragment sbu && !X1.isEmpty then
      .error .valueError
    else if X0.length = X1.length then
      let sbuR := p.sbuC.map (fun a => { a with pos := rowMul a.pos R })
      match tag sqrtFn sbuR fragS with
      | .error e => .error e
      | .ok tagged => .ok (tagged, alpha)
    else .error .valueError

/-- Modelled from the spec: the `SBU` class (`autografs.utils.sbu`, not under
`src/`) stores a name, the atoms, and a shape label produced by the external
point-group classifier; `make` additionally probes the atoms' `info` dict for
precomputed `"mmtypes"` and `"bonds"` entries, modelled as optional fields. -/
structure SBUrec where
  name : String
  shape : String
  atoms : List PyAtom
  mmtypes : Option (List String) := none
  bonds : Option (List (Nat × Nat)) := none
  deriving DecidableEq

/-- Modelled from the spec: one entry of the sbu database `self.sbu`
(an `ase.Atoms` with its `info` metadata). -/
structure LibAtoms where
  atoms : List PyAtom
  mmtypes : Option (List String) := none
  bonds : Option (List (Nat × Nat)) := none
  deriving DecidableEq

/-- Modelled from the spec: the `SBU(name=..., atoms=...)` constructor; the
shape label comes from the external classifier `shapeOf`. -/
def mkSBU (shapeOf : List PyAtom → String) (name : String) (la : LibAtoms) :
    SBUrec :=
  { name := name, shape := shapeOf la.atoms, atoms := la.atoms,
    mmtypes := la.mmtypes, bonds := la.bonds }

/-- Modelled from the spec: the `Topology` object (`autografs.utils.topologies`,
not under `src/`) exposes per-slot shape labels (`topology.shapes`) and
per-slot fragment geometries (`topology.fragments`), plus the underlying
atoms. -/
structure TopologyRec where
  atoms : List PyAtom
  shapes : List (Nat × String)
  fragments : List (Nat × List PyAtom)

/-- One aligned entry of the `Framework` container: slot index, aligned atoms,
force-field types and bonds. -/
structure FwEntry where
  idx : Nat
  atoms : List PyAtom
  mmtypes : List String
  bonds : List (Nat × Nat)
  deriving DecidableEq

/-- Modelled from the spec: the `Framework` container (`autografs.framework`,
not under `src/`): the topology template, one appended entry per slot, and
the scale seed handed to `refine`. -/
structure Framework where
  topologyAtoms : List PyAtom
  entries : List FwEntry
  alpha0 : Option Vec3 := none
  deriving DecidableEq

/-- Modelled from the spec: `Framework.append(index=..., sbu=..., ...)` adds
exactly one keyed entry. -/
def Framework.append (fw : Framework) (e : FwEntry) : Framework :=
  { fw with entries := fw.entries ++ [e] }

/-- Modelled from the spec: `Framework.refine(alpha0=...)` runs a numerical
optimization seeded by the accumulated scale and rescales the cell and,
transitively, all fragment positions; the optimizer's outcome is the opaque
parameter `opt`.  It never drops or reorders entries and never changes atom
counts, symbols or tags. -/
def Framework.refine (opt : Vec3 → ℚ) (fw : Framework) (alpha0 : Vec3) :
    Framework :=
  let s : ℚ := opt alpha0
  let rescale : List PyAtom → List PyAtom :=
    fun l => l.map (fun a => { a with pos := s • a.pos })
  { topologyAtoms := rescale fw.topologyAtoms
    entries := fw.entries.map (fun e => { e with atoms := rescale e.atoms })
    alpha0 := some alpha0 }

/-- `random.choice` (modelled from the spec's random source: the draw is the
opaque index `pick`): raises `IndexError` on an empty sequence. -/
def randomChoice (pick : Nat) (l : List SBUrec) : Except PyErr SBUrec :=
  if h : l.length = 0 then .error .indexError
  else .ok (l.get ⟨pick % l.length, Nat.mod_lt _ (Nat.pos_of_ne_zero h)⟩)

/-- The per-slot body of `get_sbu_dict` (the inside of the
`for index,shape in topology.shapes.items()` loop): build the by-shape
grouping of the named sbus (each name resolved through the database `lib`,
raising `KeyError` when missing) and draw one candidate of the slot's shape
at random; the `defaultdict` yields an empty list when no candidate has the
slot's shape, and `random.choice` then raises `IndexError`. -/
def sbuForSlot (shapeOf : List PyAtom → String) (pick : Nat → Nat)
    (lib : List (String × LibAtoms)) (sbu_names : List String)
    (slot : Nat × String) : Except PyErr (Nat × SBUrec) := do
  let sbus ← sbu_names.mapM (fun n =>
    match lib.lookup n with
    | none => Except.error PyErr.keyError
    | some la => Except.ok (mkSBU shapeOf n la))
  let byShape := sbus.filter (fun s => s.shape = slot.2)
  let chosen ← randomChoice (pick slot.1) byShape
  return (slot.1, chosen)

/-- `Autografs.get_sbu_dict`, lines 93–117: the per-slot draw `sbuForSlot`
over all slots, in the order of `topology.shapes.items()`. -/
def get_sbu_dict (shapeOf : List PyAtom → String) (pick : Nat → Nat)
    (lib : List (String × LibAtoms)) (topoShapes : List (Nat × String))
    (sbu_names : List String) : Except PyErr (List (Nat × SBUrec)) :=
  topoShapes.mapM (sbuForSlot shapeOf pick lib sbu_names)

/-- Lines 75–83 of `make`: use the `info`-stored bonds and force-field types
when both are present, otherwise call the external analyzer. -/
def slotTB (analyzeMM : List PyAtom → List (Nat × Nat) × List String)
    (sbu : SBUrec) : List (Nat × Nat) × List String :=
  match sbu.bonds, sbu.mmtypes with
  | some b, some t => (b, t)
  | some _, none => analyzeMM sbu.atoms
  | none, some _ => analyzeMM sbu.atoms
  | none, none => analyzeMM sbu.atoms

/-- The body of the `for idx,sbu in sbu_dict.items()` loop of
`Autografs.make`, lines 72–88: look up the slot's fragment (`KeyError` when
absent), resolve bonds/mmtypes from the sbu's `info` or the external
`analyze_mm`, align, accumulate the scale vector, and append the aligned
entry. -/
def makeStep (sqrtFn : ℚ → ℚ) (Rof : Nat → Mat3Q)
    (analyzeMM : List PyAtom → List (Nat × Nat) × List String)
    (topo : TopologyRec) (st : Framework × Vec3) (item : Nat × SBUrec) :
    Except PyErr (Framework × Vec3) :=
  match topo.fragments.lookup item.1 with
  | none => .error .keyError
  | some fragment_atoms =>
    let tb := slotTB analyzeMM item.2
    match align sqrtFn (Rof item.1) fragment_atoms item.2.atoms with
    | .error e => .error e
    | .ok (sbuAligned, f) =>
      .ok (st.1.append
             { idx := item.1, atoms := sbuAligned, mmtypes := tb.2,
               bonds := tb.1 },
           st.2 + f)

/-- The loop of `Autografs.make` followed by the final
`aligned.refine(alpha0=alpha)` (lines 61–91), starting from an empty
`Framework` holding the topology template and a zero scale accumulator. -/
def makeCore (sqrtFn : ℚ → ℚ) (Rof : Nat → Mat3Q)
    (analyzeMM : List PyAtom → List (Nat × Nat) × List String)
    (opt : Vec3 → ℚ) (topo : TopologyRec) (items : List (Nat × SBUrec)) :
    Except PyErr Framework := do
  let st ← items.foldlM (makeStep sqrtFn Rof analyzeMM topo)
    ({ topologyAtoms := topo.atoms, entries := [] }, (0 : Vec3))
  return Framework.refine opt st.1 st.2

/-- `Autografs.make`, lines 44–91: when no explicit slot assignment is given,
`get_sbu_dict` produces one (any error aborts the whole request); then the
per-slot loop and the final refinement run. -/
def make (sqrtFn : ℚ → ℚ) (Rof : Nat → Mat3Q)
    (analyzeMM : List PyAtom → List (Nat × Nat) × List String)
    (opt : Vec3 → ℚ) (shapeOf : List PyAtom → String) (pick : Nat → Nat)
    (lib : List (String × LibAtoms)) (topo : TopologyRec)
    (sbu_names : List String) (sbu_dict : Option (List (Nat × SBUrec))) :
    Except PyErr Framework := do
  let items ← match sbu_dict with
    | some d => Except.ok d
    | none => get_sbu_dict shapeOf pick lib topo.shapes sbu_names
  makeCore sqrtFn Rof analyzeMM opt topo items

/-- Success condition for one iteration of the `make` loop: the slot's
fragment exists in the topology and `align` succeeds on it. -/
def stepOK (sqrtFn : ℚ → ℚ) (Rof : Nat → Mat3Q) (topo : TopologyRec)
    (it : Nat × SBUrec) : Prop :=
  ∃ frag, topo.fragments.lookup it.1 = some frag ∧
    ∃ r, align sqrtFn (Rof it.1) frag it.2.atoms = .ok r

/-- The scale vector returned by `align` for one slot (zero in the error
cases, which a successful `make` run never reaches). -/
def slotScale (sqrtFn : ℚ → ℚ) (Rof : Nat → Mat3Q) (topo : TopologyRec)
    (it : Nat × SBUrec) : Vec3 :=
  match topo.fragments.lookup it.1 with
  | none => 0
  | some frag =>
    match align sqrtFn (Rof it.1) frag it.2.atoms with
    | .error _ => 0
    | .ok r => r.2

/-- The aligned atoms returned by `align` for one slot (the unit's own atoms
in the error cases, which a successful `make` run never reaches). -/
def slotAtoms (sqrtFn : ℚ → ℚ) (Rof : Nat → Mat3Q) (topo : TopologyRec)
    (it : Nat × SBUrec) : List PyAtom :=
  match topo.fragments.lookup it.1 with
  | none => it.2.atoms
  | some frag =>
    match align sqrtFn (Rof it.1) frag it.2.atoms with
    | .error _ => it.2.atoms
    | .ok r => r.1

/-- The framework entry appended for one slot on the success path. -/
def slotEntry (sqrtFn : ℚ → ℚ) (Rof : Nat → Mat3Q)
    (analyzeMM : List PyAtom → List (Nat × Nat) × List String)
    (topo : TopologyRec) (it : Nat × SBUrec) : FwEntry :=
  { idx := it.1, atoms := slotAtoms sqrtFn Rof topo it,
    mmtypes := (slotTB analyzeMM it.2).2, bonds := (slotTB analyzeMM it.2).1 }

/-- The effect of one successful `make` iteration on the accumulator. -/
def makeStepPure (sqrtFn : ℚ → ℚ) (Rof : Nat → Mat3Q)
    (analyzeMM : List PyAtom → List (Nat × Nat) × List String)
    (topo : TopologyRec) (st : Framework × Vec3) (it : Nat × SBUrec) :
    Framework × Vec3 :=
  (st.1.append (slotEntry sqrtFn Rof analyzeMM topo it),
   st.2 + slotScale sqrtFn Rof topo it)

/-- `Autografs.list_available_sbu`, lines 207–221.  Python compiles the name
`shapes` as a local variable of the function (it is assigned on line 218),
so the read of `shapes` in the dict comprehension on line 216 — the first
statement of the body — raises `UnboundLocalError` (a `NameError`) before
anything else runs.  The model makes the not-yet-assigned local explicit as
`none`; the remaining statements (lines 217–221) are translated in the dead
branch. -/
def list_available_sbu (lib : List (String × LibAtoms))
    (shapeKeyOf : String → String) (topoShapesOf : String → List String)
    (topology : String) : Except PyErr (List (String × List String)) :=
  let shapesVar : Option (List String) := none
  match shapesVar with
  | none => .error .nameError
  | some shapes0 =>
    let sbu0 := shapes0.map (fun sh => (sh, lib.map Prod.fst))
    if topology ≠ "" then
      let shapes1 := topoShapesOf topology
      .ok (shapes1.foldl
        (fun m sh => m.map (fun p =>
          if p.1 = sh then (p.1, p.2.filter (fun k => shapeKeyOf k = sh))
          else p)) sbu0)
    else .ok sbu0

/-! ## Store-level model of the mutation discipline of `align` and `make`

`ase.Atoms` objects are heap objects passed by reference; `align` starts with
`sbu = sbu.copy(); fragment = fragment.copy()` and every subsequent
assignment (`.positions -=`, `.positions =`, the tag writes of `tag`)
mutates the copy the local name is bound to.  The heap is a list of atom
lists; references are indices; `copy` allocates. -/

/-- The store of `ase.Atoms` objects. -/
abbrev Heap := List (List PyAtom)

/-- Dereference (junk on a dangling reference). -/
def hread (h : Heap) (r : Nat) : List PyAtom := h.getD r []

/-- In-place mutation of the object behind a reference. -/
def hwrite (h : Heap) (r : Nat) (v : List PyAtom) : Heap := h.set r v

/-- `.copy()` / allocation: a fresh reference to a fresh object. -/
def halloc (h : Heap) (v : List PyAtom) : Nat × Heap := (h.length, h ++ [v])

/-- The mutating tail of store-level `align` (lines 135–161), after the two
copies have been allocated: every assignment of the python code is an
explicit `hwrite` to the reference (`fr` for the local `fragment`, `sr` for
the local `sbu`) that the mutated name is bound to. -/
def alignHbody (sqrtFn : ℚ → ℚ) (R : Mat3Q) (h2 : Heap) (sr fr : Nat) :
    Except PyErr (Nat × Vec3) × Heap :=
  -- fragment_cop = fragment.positions.mean(axis=0); fragment.positions -= fragment_cop
  let fragment_cop := centroid ((hread h2 fr).map (·.pos))
  let h3 := hwrite h2 fr
    ((hread h2 fr).map (fun a => { a with pos := a.pos - fragment_cop }))
  -- sbu.positions -= sbu.positions.mean(axis=0)
  let sbu_cop := centroid ((hread h3 sr).map (·.pos))
  let h4 := hwrite h3 sr
    ((hread h3 sr).map (fun a => { a with pos := a.pos - sbu_cop }))
  -- sbu_X = sbu[sbu_Xis]
  let sbu_X := (hread h4 sr).filter (fun a => a.symbol = "X")
  let size_sbu := sbu_X.map (fun a => normF sqrtFn a.pos)
  let size_fragment := (hread h4 fr).map (fun a => normF sqrtFn a.pos)
  match broadcastDiv size_sbu size_fragment with
  | .error e => (.error e, h4)
  | .ok ratios =>
    let alpha0 : ℚ := 2 * mean ratios
    let ncop := normF sqrtFn fragment_cop
    let direction : Vec3 :=
      if ncop < 1 / 1000000 then (normF sqrtFn onesVec)⁻¹ • onesVec
      else ncop⁻¹ • fragment_cop
    let alpha : Vec3 := alpha0 • direction
    -- fragment.positions = fragment.positions.dot(numpy.eye(3)*alpha)
    let h5 := hwrite h4 fr
      ((hread h4 fr).map (fun a => { a with pos := axisScale a.pos alpha }))
    let X0 := sbu_X.map (·.pos)
    let X1 := (hread h5 fr).map (·.pos)
    -- scipy's default check_finite rejects the non-finite X1 first (see align)
    if (broadcastDivNonFinite size_sbu size_fragment || ratios.isEmpty)
        && !X1.isEmpty then
      (.error .valueError, h5)
    else if X0.length = X1.length then
      -- sbu.positions = sbu.positions.dot(R)
      let h6 := hwrite h5 sr
        ((hread h5 sr).map (fun a => { a with pos := rowMul a.pos R }))
      -- self.tag(sbu, fragment): writes the dummies' tags on the sbu copy
      match tag sqrtFn (hread h6 sr) (hread h6 fr) with
      | .error e => (.error e, h6)
      | .ok tagged => (.ok (sr, alpha), hwrite h6 sr tagged)
    else (.error .valueError, h5)

/-- Store-level rendering of `Autografs.align` (lines 131–161): the two
inputs are references; `sbu = sbu.copy(); fragment = fragment.copy()`
allocate fresh objects, and all subsequent mutation happens through
`alignHbody` on the fresh references.  Returns the reference of the aligned
copy and the scale vector. -/
def alignH (sqrtFn : ℚ → ℚ) (R : Mat3Q) (h : Heap) (fragRef sbuRef : Nat) :
    Except PyErr (Nat × Vec3) × Heap :=
  let (sr, h1) := halloc h (hread h sbuRef)
  let (fr, h2) := halloc h1 (hread h1 fragRef)
  alignHbody sqrtFn R h2 sr fr

/-- Store-level rendering of the `make` loop (lines 72–88): the topology's
fragments and the chosen sbus' atoms live in the heap, and each iteration
calls `alignH` on the two references. -/
def makeLoopH (sqrtFn : ℚ → ℚ) (Rof : Nat → Mat3Q)
    (fragRefs : List (Nat × Nat)) :
    List (Nat × Nat) → Heap → List (Nat × Nat) × Vec3 →
    Except PyErr (List (Nat × Nat) × Vec3) × Heap
  | [], h, acc => (.ok acc, h)
  | it :: rest, h, acc =>
    match fragRefs.lookup it.1 with
    | none => (.error .keyError, h)
    | some frRef =>
      match alignH sqrtFn (Rof it.1) h frRef it.2 with
      | (.error e, h') => (.error e, h')
      | (.ok (sr, f), h') =>
        makeLoopH sqrtFn Rof fragRefs rest h' (acc.1 ++ [(it.1, sr)], acc.2 + f)

/-! ## Relational model of `scipy.linalg.orthogonal_procrustes`

scipy computes `M = X0ᵀ·X1`, an SVD `M = U·Σ·Vᵀ`, and returns `R = U·Vᵀ`.
`R = U·Vᵀ` is exactly an orthogonal maximizer of `⟨M, Q⟩ = trace (Mᵀ·Q)`
over orthogonal `Q` (the standard SVD characterization), which is how the
solution is modelled. -/

/-- Real 3×3 matrices (the rotation returned by scipy). -/
abbrev Mat3R := Matrix (Fin 3) (Fin 3) ℝ

/-- Orthogonality. -/
def IsOrth (Q : Mat3R) : Prop := Q.transpose * Q = 1

/-- Cast the rational data matrix to the reals. -/
def mcast (M : Mat3Q) : Mat3R := M.map (fun q => (q : ℝ))

/-- The Procrustes objective `trace (Mᵀ·Q)` (its maximization over orthogonal
`Q` is equivalent to minimizing the Frobenius residual `‖X0·Q − X1‖`). -/
def procObj (M : Mat3Q) (Q : Mat3R) : ℝ := ((mcast M).transpose * Q).trace

/-- The solution set of `scipy.linalg.orthogonal_procrustes(X0, X1)` with
data matrix `M = X0ᵀ·X1`: orthogonal and objective-maximal. -/
def IsProcrustesSol (M : Mat3Q) (R : Mat3R) : Prop :=
  IsOrth R ∧ ∀ Q : Mat3R, IsOrth Q → procObj M Q ≤ procObj M R

/-- `M = X0ᵀ·X1` for two equally long lists of 3-vectors (the `(3,3)` data
matrix scipy decomposes). -/
def procrustesM (X0 X1 : List Vec3) : Mat3Q :=
  Matrix.of (fun a b => ((X0.zip X1).map (fun p => p.1.nth a * p.2.nth b)).sum)

/-- The unique-solution predicate used by the reflection counterexample:
`R` solves the Procrustes problem for `M` and every solution equals `R`. -/
def OnlyProcrustesSol (M : Mat3Q) (R : Mat3R) : Prop :=
  IsProcrustesSol M R ∧ ∀ Q : Mat3R, IsProcrustesSol M Q → Q = R

/-- Exact rational square root: exact on perfect squares of naturals and
ratios of them (`ratSqrt 1 = 1`, `ratSqrt 9 = 3`, `ratSqrt 4 = 2`, ...). -/
def ratSqrt (q : ℚ) : ℚ := (Nat.sqrt q.num.toNat : ℚ) / (Nat.sqrt q.den : ℚ)

/-- Written from the spec's words (§4.2 steps 4–5), for the refinement
comparison of claim C4: the per-slot scale vector is
`2 × mean(unit connection-point distances from the unit centroid /
fragment point distances from the fragment centroid)` times a unit
direction — the normalized all-ones vector when the pre-translation fragment
centroid has norm below `1e-6`, the normalized fragment centroid
otherwise. -/
def specScaleVec (sqrtFn : ℚ → ℚ) (fragment sbu : List PyAtom) : Vec3 :=
  let fragment_centroid := centroid (fragment.map (·.pos))
  let unit_centroid := centroid (sbu.map (·.pos))
  let connection_points := sbu.filter (fun a => a.symbol = "X")
  let unit_sizes :=
    connection_points.map (fun a => sqrtFn (sqnorm (a.pos - unit_centroid)))
  let fragment_sizes :=
    fragment.map (fun a => sqrtFn (sqnorm (a.pos - fragment_centroid)))
  let magnitude : ℚ := 2 * mean (List.zipWith (· / ·) unit_sizes fragment_sizes)
  let ncop := sqrtFn (sqnorm fragment_centroid)
  let direction : Vec3 :=
    if ncop < 1 / 1000000 then (sqrtFn (sqnorm onesVec))⁻¹ • onesVec
    else ncop⁻¹ • fragment_centroid
  magnitude • direction

/-! ## Concrete inputs used by the witnesses and the counterexample -/

/-- A 2-point "linear" fragment with centroid at the origin, tags 1 and 2. -/
def wFrag : List PyAtom :=
  [{ symbol := "He", pos := ⟨1, 0, 0⟩, tag := 1 },
   { symbol := "He", pos := ⟨-1, 0, 0⟩, tag := 2 }]

/-- A linear building unit: two dummies at `(0,0,±2)` and one carbon. -/
def wSbu : List PyAtom :=
  [{ symbol := "X", pos := ⟨0, 0, 2⟩, tag := 0 },
   { symbol := "X", pos := ⟨0, 0, -2⟩, tag := 0 },
   { symbol := "C", pos := ⟨0, 0, 0⟩, tag := 0 }]

/-- A building unit with no connection point at all. -/
def wSbuNoX : List PyAtom := [{ symbol := "C", pos := ⟨0, 0, 0⟩, tag := 0 }]

/-- A degenerate fragment: a single point, which is its own centroid, so its
centred radius is zero and the size computation divides by zero. -/
def wFragDegenerate : List PyAtom :=
  [{ symbol := "He", pos := ⟨1, 1, 1⟩, tag := 5 }]

/-- A building unit with exactly one dummy (cardinality matching
`wFragDegenerate`). -/
def wSbuOneX : List PyAtom :=
  [{ symbol := "X", pos := ⟨2, 0, 0⟩, tag := 0 },
   { symbol := "C", pos := ⟨0, 0, 0⟩, tag := 0 }]

/-- An octahedral 6-point fragment centred at `(1,2,2)` (squared centroid
norm `9`, an exact square). -/
def cFrag : List PyAtom :=
  [{ symbol := "He", pos := ⟨2, 2, 2⟩, tag := 0 },
   { symbol := "He", pos := ⟨0, 2, 2⟩, tag := 0 },
   { symbol := "He", pos := ⟨1, 3, 2⟩, tag := 0 },
   { symbol := "He", pos := ⟨1, 1, 2⟩, tag := 0 },
   { symbol := "He", pos := ⟨1, 2, 3⟩, tag := 0 },
   { symbol := "He", pos := ⟨1, 2, 1⟩, tag := 0 }]

/-- An octahedral all-dummy unit whose points pair with `cFrag`'s centred
points identically (data matrix positive diagonal). -/
def cSbuId : List PyAtom :=
  [{ symbol := "X", pos := ⟨1, 0, 0⟩, tag := 0 },
   { symbol := "X", pos := ⟨-1, 0, 0⟩, tag := 0 },
   { symbol := "X", pos := ⟨0, 1, 0⟩, tag := 0 },
   { symbol := "X", pos := ⟨0, -1, 0⟩, tag := 0 },
   { symbol := "X", pos := ⟨0, 0, 1⟩, tag := 0 },
   { symbol := "X", pos := ⟨0, 0, -1⟩, tag := 0 }]

/-- The same octahedral unit with the two `z`-dummies swapped, so the
correspondence with `cFrag` is a mirror image (data matrix
`diag(+, +, −)`): the optimal orthogonal map is a reflection. -/
def cSbuFlip : List PyAtom :=
  [{ symbol := "X", pos := ⟨1, 0, 0⟩, tag := 0 },
   { symbol := "X", pos := ⟨-1, 0, 0⟩, tag := 0 },
   { symbol := "X", pos := ⟨0, 1, 0⟩, tag := 0 },
   { symbol := "X", pos := ⟨0, -1, 0⟩, tag := 0 },
   { symbol := "X", pos := ⟨0, 0, -1⟩, tag := 0 },
   { symbol := "X", pos := ⟨0, 0, 1⟩, tag := 0 }]

/-- `X0` produced by `alignX0X1 ratSqrt cFrag cSbuId`. -/
def wX0 : List Vec3 := [⟨1,0,0⟩, ⟨-1,0,0⟩, ⟨0,1,0⟩, ⟨0,-1,0⟩, ⟨0,0,1⟩, ⟨0,0,-1⟩]

/-- `X1` produced by `alignX0X1 ratSqrt cFrag cSbuId` (and also by the
flipped pairing, which only permutes `X0`). -/
def wX1 : List Vec3 :=
  [⟨2/3,0,0⟩, ⟨-2/3,0,0⟩, ⟨0,4/3,0⟩, ⟨0,-4/3,0⟩, ⟨0,0,4/3⟩, ⟨0,0,-4/3⟩]

/-- `X0` produced by `alignX0X1 ratSqrt cFrag cSbuFlip`. -/
def cX0 : List Vec3 := [⟨1,0,0⟩, ⟨-1,0,0⟩, ⟨0,1,0⟩, ⟨0,-1,0⟩, ⟨0,0,-1⟩, ⟨0,0,1⟩]

/-- The reflection `diag(1,1,−1)`. -/
def reflZ : Mat3R := Matrix.diagonal ![1, 1, -1]

/-- A small sbu database with one linear unit. -/
def wLib : List (String × LibAtoms) := [("benzene", { atoms := wSbu })]

/-- A topology record with one linear slot, fragment `wFrag`. -/
def wTopo : TopologyRec :=
  { atoms := [], shapes := [(0, "linear")], fragments := [(0, wFrag)] }

/-- A topology record with one triangular slot (no unit of that shape in
`wLib`). -/
def wTopoTri : TopologyRec :=
  { atoms := [], shapes := [(0, "triangular")], fragments := [(0, wFrag)] }

/-- The slot assignment `{0 : wSbu}` as produced from `wLib`. -/
def wItems : List (Nat × SBUrec) :=
  [(0, { name := "benzene", shape := "linear", atoms := wSbu })]

/-- The heap holding `wFrag` and `wSbu` for the store-level witness. -/
def wHeap : Heap := [wFrag, wSbu]

/-- A unit for the tagging witness: one dummy at the origin, one carbon. -/
def wTagSbu : List PyAtom :=
  [{ symbol := "X", pos := ⟨0, 0, 0⟩, tag := 0 },
   { symbol := "C", pos := ⟨5, 5, 5⟩, tag := 3 }]

/-- A fragment for the tagging witness: the dummy is equidistant from the
points tagged 9 and 8 (both at the origin), and the first-encountered
minimum wins. -/
def wTagFrag : List PyAtom :=
  [{ symbol := "He", pos := ⟨1, 0, 0⟩, tag := 7 },
   { symbol := "He", pos := ⟨0, 0, 0⟩, tag := 9 },
   { symbol := "He", pos := ⟨0, 0, 0⟩, tag := 8 }]

/-- `tag id wTagSbu wTagFrag`: the dummy received tag 9, the carbon is
untouched. -/
def wTagOut : List PyAtom :=
  [{ symbol := "X", pos := ⟨0, 0, 0⟩, tag := 9 },
   { symbol := "C", pos := ⟨5, 5, 5⟩, tag := 3 }]

/-- `align ratSqrt 1 wFrag wSbu`: both dummies end up nearest to the fragment
point tagged 1 (they are equidistant from both scaled fragment points). -/
def wAligned : List PyAtom :=
  [{ symbol := "X", pos := ⟨0, 0, 2⟩, tag := 1 },
   { symbol := "X", pos := ⟨0, 0, -2⟩, tag := 1 },
   { symbol := "C", pos := ⟨0, 0, 0⟩, tag := 0 }]

/-- The framework produced by `make` on `wTopo` with assignment `wItems`
(trivial optimizer `opt = 1`, so refinement rescales by `1`). -/
def wFw : Framework :=
  { topologyAtoms := [],
    entries := [{ idx := 0, atoms := wAligned, mmtypes := [], bonds := [] }],
    alpha0 := some ⟨4, 4, 4⟩ }

/-! ## Helper lemmas -/

theorem alignPrep_fragC_length (fragment sbu : List PyAtom) :
    (alignPrep fragment sbu).fragC.length = fragment.length := by
  simp [alignPrep]

theorem alignPrep_sbu_X_length (fragment sbu : List PyAtom) :
    (alignPrep fragment sbu).sbu_X.length
      = (sbu.filter (fun a => a.symbol = "X")).length := by
  simp only [alignPrep, List.filter_map, List.length_map]
  rfl

theorem mapM_ok_forall₂ {α β : Type} (f : α → Except PyErr β) :
    ∀ {l : List α} {out : List β},
      l.mapM f = .ok out ↔ List.Forall₂ (fun a b => f a = .ok b) l out := by
  intro l
  induction l with
  | nil =>
    intro out
    constructor
    · intro h
      cases h
      exact List.Forall₂.nil
    · intro h
      cases h
      rfl
  | cons a l ih =>
    intro out
    rw [List.mapM_cons]
    constructor
    · intro h
      cases hfa : f a with
      | error e => rw [hfa] at h; cases h
      | ok b =>
        rw [hfa] at h
        cases hrest : l.mapM f with
        | error e =>
          rw [hrest] at h
          cases h
        | ok bs =>
          rw [hrest] at h
          cases h
          exact List.Forall₂.cons hfa (ih.mp hrest)
    · intro h
      cases h with
      | cons hab hrest =>
        rw [hab, ih.mpr hrest]
        rfl

/-! ## Claim C10 -/

/-- C10: for every input, `list_available_sbu` raises a `NameError`: the
local variable `shapes` is read in the dict comprehension on its first line
(line 216) before it is ever assigned (line 218), so the function never
returns the documented dictionary. -/
theorem c10_list_available_sbu_always_nameError
    (lib : List (String × LibAtoms)) (shapeKeyOf : String → String)
    (topoShapesOf : String → List String) (topology : String) :
    list_available_sbu lib shapeKeyOf topoShapesOf topology
      = .error .nameError := rfl

/-! ## Claim C3 -/

/-- C3 (counterexample to the claim as stated): on a fragment consisting of
a single point — so its centred point set is `[0]`, at zero distance from
the centroid — with a unit of matching connection-point count, the scale
computation itself does NOT fail: `alignAlphaE` (lines 142–151) returns a
value, because the division `size_sbu / size_fragment` by the zero fragment
size only emits a numpy `RuntimeWarning` and, in float semantics, yields a
non-finite scale vector (`scaleNonFinite` holds), i.e. the code DOES divide
by zero and the `inf`/`nan` do reach the scale vector and the scaled
fragment, contrary to the claim. -/
theorem c3_counterexample :
    ((alignPrep wFragDegenerate wSbuOneX).fragC.map
        (fun a => normF ratSqrt a.pos) = [0])
    ∧ alignAlphaE ratSqrt wFragDegenerate wSbuOneX = .ok 0
    ∧ scaleNonFinite ratSqrt wFragDegenerate wSbuOneX = true := by
  with_unfolding_all decide

theorem divNonFinite_of_zero (a b r : List ℚ)
    (h0 : (0 : ℚ) ∈ b) (hbd : broadcastDiv a b = .ok r) :
    (broadcastDivNonFinite a b || r.isEmpty) = true := by
  rw [Bool.or_eq_true]
  by_cases h1 : a.length = b.length
  · refine Or.inl ?_
    simp only [broadcastDivNonFinite]
    rw [if_pos h1]
    exact List.any_eq_true.mpr ⟨0, h0, by simp⟩
  · by_cases h2 : a.length = 1
    · refine Or.inl ?_
      simp only [broadcastDivNonFinite]
      rw [if_neg h1, if_pos h2]
      exact List.any_eq_true.mpr ⟨0, h0, by simp⟩
    · by_cases h3 : b.length = 1
      · have hb0 : b.headD 0 = 0 := by
          cases b with
          | nil => cases h0
          | cons x xs =>
            cases h0 with
            | head => rfl
            | tail _ hx =>
              simp only [List.length_cons, Nat.add_left_eq_self,
                List.length_eq_zero] at h3
              subst h3
              cases hx
        by_cases h4 : a = []
        · refine Or.inr ?_
          subst h4
          simp only [broadcastDiv] at hbd
          rw [if_neg h1, if_neg h2, if_pos h3] at hbd
          injection hbd with h
          rw [← h]
          rfl
        · refine Or.inl ?_
          obtain ⟨y, ys, rfl⟩ : ∃ y ys, a = y :: ys := by
            cases a with
            | nil => exact absurd rfl h4
            | cons y ys => exact ⟨y, ys, rfl⟩
          simp only [broadcastDivNonFinite]
          rw [if_neg h1, if_neg h2, if_pos h3]
          rw [Bool.and_eq_true]
          exact ⟨rfl, decide_eq_true hb0⟩
      · simp only [broadcastDiv] at hbd
        rw [if_neg h1, if_neg h2, if_neg h3] at hbd
        exact Except.noConfusion hbd

/-- C3 (amended): for every fragment containing a point at zero (squared)
distance from the fragment's centroid — with a square-root function sending
`0` to `0`, as the real square root does — `align` fails and produces no
aligned result; but the failure is not an error of the scale computation:
the division by the zero fragment size goes through silently (numpy only
warns), the scale vector and the scaled fragment positions become
non-finite, and the `check_finite` validation of
`scipy.linalg.orthogonal_procrustes` then raises `ValueError` at the
rotation step (line 157). -/
theorem c3_degenerate_fragment_aborts (sqrtFn : ℚ → ℚ) (hs0 : sqrtFn 0 = 0)
    (R : Mat3Q) (fragment sbu : List PyAtom)
    (hz : ∃ a ∈ fragment,
        sqnorm (a.pos - centroid (fragment.map (fun x => x.pos))) = 0) :
    ∃ e, align sqrtFn R fragment sbu = .error e := by
  obtain ⟨a, ha, haz⟩ := hz
  have hfne : fragment ≠ [] := by
    rintro rfl
    cases ha
  have h0 : (0 : ℚ) ∈ (alignPrep fragment sbu).fragC.map
      (fun x => normF sqrtFn x.pos) := by
    simp only [alignPrep]
    refine List.mem_map.mpr ⟨_, List.mem_map.mpr ⟨a, ha, rfl⟩, ?_⟩
    simp [normF, haz, hs0]
  cases halpha : alignAlphaE sqrtFn fragment sbu with
  | error e => exact ⟨e, by simp only [align, halpha]⟩
  | ok alpha =>
    refine ⟨.valueError, ?_⟩
    cases hbd : broadcastDiv
        ((alignPrep fragment sbu).sbu_X.map (fun x => normF sqrtFn x.pos))
        ((alignPrep fragment sbu).fragC.map (fun x => normF sqrtFn x.pos))
        with
    | error e =>
      simp only [alignAlphaE, hbd] at halpha
      exact Except.noConfusion halpha
    | ok ratios =>
      have hflag : scaleNonFinite sqrtFn fragment sbu = true := by
        simp only [scaleNonFinite, hbd]
        exact divNonFinite_of_zero _ _ _ h0 hbd
      simp only [align, halpha]
      split
      · rfl
      · rename_i hcontra
        exfalso
        apply hcontra
        rw [Bool.and_eq_true]
        refine ⟨hflag, ?_⟩
        cases hfc : (alignPrep fragment sbu).fragC with
        | nil =>
          exfalso
          have hlen := congrArg List.length hfc
          rw [alignPrep_fragC_length] at hlen
          exact hfne (List.eq_nil_of_length_eq_zero hlen)
        | cons x xs => rfl

/-- Witness for the amended C3 at a concrete input: the single-point
fragment `wFragDegenerate` has its one point at zero squared distance from
its centroid, `ratSqrt` sends `0` to `0`, and `align` errors. -/
theorem c3_witness :
    ratSqrt 0 = 0
    ∧ (∃ a ∈ wFragDegenerate,
        sqnorm (a.pos - centroid (wFragDegenerate.map (fun x => x.pos))) = 0)
    ∧ ∃ e, align ratSqrt 1 wFragDegenerate wSbuOneX = .error e :=
  ⟨by with_unfolding_all decide, by with_unfolding_all decide,
   c3_degenerate_fragment_aborts ratSqrt (by with_unfolding_all decide) 1
     wFragDegenerate wSbuOneX (by with_unfolding_all decide)⟩

/-! ## Claim C2 -/

/-- C2: on a nonempty fragment, whenever the building unit has zero
connection-point (`"X"`) atoms, or the number of its connection points
differs from the number of fragment points, `align` raises an error (numpy's
broadcasting `ValueError` in the elementwise size division, or the
`ValueError` of scipy's equal-shape check) and produces no aligned
result. -/
theorem c2_align_shape_mismatch_error (sqrtFn : ℚ → ℚ) (R : Mat3Q)
    (fragment sbu : List PyAtom) (hn : 1 ≤ fragment.length)
    (hcond : (sbu.filter (fun a => a.symbol = "X")).length = 0 ∨
             (sbu.filter (fun a => a.symbol = "X")).length ≠ fragment.length) :
    ∃ e, align sqrtFn R fragment sbu = .error e := by
  have hm : (alignPrep fragment sbu).sbu_X.length
      ≠ (alignPrep fragment sbu).fragC.length := by
    rw [alignPrep_sbu_X_length, alignPrep_fragC_length]
    rcases hcond with h | h
    · omega
    · exact h
  cases halpha : alignAlphaE sqrtFn fragment sbu with
  | error e =>
    exact ⟨e, by simp only [align, halpha]⟩
  | ok alpha =>
    refine ⟨.valueError, ?_⟩
    simp only [align, halpha, List.length_map]
    split
    · rfl
    · rfl

/-- Witness for C2 at a concrete input: `wFrag` has two points, `wSbuNoX`
has no dummy atom, and `align` errors. -/
theorem c2_witness :
    1 ≤ wFrag.length
    ∧ ((wSbuNoX.filter (fun a => a.symbol = "X")).length = 0
        ∨ (wSbuNoX.filter (fun a => a.symbol = "X")).length ≠ wFrag.length)
    ∧ ∃ e, align ratSqrt 1 wFrag wSbuNoX = .error e :=
  ⟨by decide, by decide,
   c2_align_shape_mismatch_error ratSqrt 1 wFrag wSbuNoX (by decide)
     (by decide)⟩

/-! ## Claim C6 -/

theorem sqnorm_nonneg (v : Vec3) : 0 ≤ sqnorm v := by
  cases v with
  | mk x y z =>
    simp only [sqnorm]
    nlinarith [mul_self_nonneg x, mul_self_nonneg y, mul_self_nonneg z]

theorem getD_map_of_lt {α β : Type} (f : α → β) (l : List α) (k : Nat)
    (hk : k < l.length) (d : α) (d' : β) :
    (l.map f).getD k d' = f (l.getD k d) := by
  induction l generalizing k with
  | nil => cases hk
  | cons a l ih =>
    cases k with
    | zero => rfl
    | succ k =>
      simp only [List.map_cons, List.getD_cons_succ]
      exact ih k (by simpa using hk)

theorem argminIdx_lt_length : ∀ (l : List ℚ), l ≠ [] → argminIdx l < l.length := by
  intro l
  induction l with
  | nil => intro h; exact absurd rfl h
  | cons d rest ih =>
    intro _
    cases rest with
    | nil => simp [argminIdx]
    | cons e rest' =>
      simp only [argminIdx]
      split
      · have := ih (by simp)
        simpa [Nat.succ_lt_succ_iff] using this
      · simp

theorem argminIdx_le :
    ∀ (l : List ℚ) (k : Nat), k < l.length →
      l.getD (argminIdx l) 0 ≤ l.getD k 0 := by
  intro l
  induction l with
  | nil => intro k hk; cases hk
  | cons d rest ih =>
    intro k hk
    cases rest with
    | nil =>
      cases k with
      | zero => simp [argminIdx]
      | succ k' =>
        simp only [List.length_cons, List.length_nil] at hk
        omega
    | cons e rest' =>
      simp only [argminIdx]
      by_cases h : (e :: rest').getD (argminIdx (e :: rest')) 0 < d
      · rw [if_pos h]
        cases k with
        | zero => simpa using le_of_lt h
        | succ k' =>
          have hk' : k' < (e :: rest').length := by
            simp only [List.length_cons] at hk ⊢
            omega
          simpa using ih k' hk'
      · rw [if_neg h]
        cases k with
        | zero => simp
        | succ k' =>
          have h1 : d ≤ (e :: rest').getD (argminIdx (e :: rest')) 0 :=
            le_of_not_lt h
          have hk' : k' < (e :: rest').length := by
            simp only [List.length_cons] at hk ⊢
            omega
          simpa using le_trans h1 (ih k' hk')

theorem argminIdx_first :
    ∀ (l : List ℚ) (k : Nat), k < argminIdx l →
      l.getD (argminIdx l) 0 < l.getD k 0 := by
  intro l
  induction l with
  | nil => intro k hk; simp [argminIdx] at hk
  | cons d rest ih =>
    intro k hk
    cases rest with
    | nil => simp [argminIdx] at hk
    | cons e rest' =>
      simp only [argminIdx] at hk ⊢
      by_cases h : (e :: rest').getD (argminIdx (e :: rest')) 0 < d
      · rw [if_pos h] at hk ⊢
        cases k with
        | zero => simpa using h
        | succ k' => simpa using ih k' (by omega)
      · rw [if_neg h] at hk
        cases hk

/-- Pointwise reading of a `Forall₂` via `getD`. -/
theorem forall₂_getD {α β : Type} {R : α → β → Prop} :
    ∀ {l : List α} {l' : List β}, List.Forall₂ R l l' →
      ∀ (i : Nat) (d : α) (d' : β), i < l.length → R (l.getD i d) (l'.getD i d') := by
  intro l l' h
  induction h with
  | nil => intro i d d' hi; cases hi
  | cons hab hrest ih =>
    intro i d d' hi
    cases i with
    | zero => simpa using hab
    | succ i' => simpa using ih i' d d' (by simpa using hi)

/-- The spec of `tagAtom` on a dummy atom. -/
theorem tagAtom_spec_X (sqrtFn : ℚ → ℚ) (fragment : List PyAtom) (a b : PyAtom)
    (hx : a.symbol = "X") (hok : tagAtom sqrtFn fragment a = .ok b) :
    fragment ≠ [] ∧
      b = { a with
            tag := (fragment.getD
              (argminIdx (fragment.map
                (fun fa => normF sqrtFn (fa.pos - a.pos)))) dfltAtom).tag } := by
  unfold tagAtom at hok
  rw [if_neg (not_not_intro hx)] at hok
  cases fragment with
  | nil => exact Except.noConfusion hok
  | cons f fs =>
    exact ⟨by simp, (Except.ok.inj hok).symm⟩

/-- C6: whenever `tag` succeeds and the square-root function is strictly
monotone on nonnegatives (as the real square root is), every atom of the unit
that is a connection placeholder (symbol `"X"`) receives exactly the tag of
the fragment point at minimum Euclidean distance from it — stated via squared
distances, whose ordering is the Euclidean-distance ordering — with ties
broken by the first-encountered minimum in the fragment's stored order; all
other atoms are returned unchanged. -/
theorem c6_tag_nearest (sqrtFn : ℚ → ℚ)
    (hmono : ∀ p q : ℚ, 0 ≤ p → 0 ≤ q → (sqrtFn p < sqrtFn q ↔ p < q))
    (sbu fragment : List PyAtom) (out : List PyAtom)
    (hok : tag sqrtFn sbu fragment = .ok out) :
    out.length = sbu.length ∧
    ∀ i, i < sbu.length →
      ((sbu.getD i dfltAtom).symbol ≠ "X" →
          out.getD i dfltAtom = sbu.getD i dfltAtom) ∧
      ((sbu.getD i dfltAtom).symbol = "X" →
          ∃ j, j < fragment.length ∧
            out.getD i dfltAtom
              = { sbu.getD i dfltAtom with
                  tag := (fragment.getD j dfltAtom).tag } ∧
            (∀ k, k < fragment.length →
              sqnorm ((fragment.getD j dfltAtom).pos - (sbu.getD i dfltAtom).pos)
                ≤ sqnorm ((fragment.getD k dfltAtom).pos - (sbu.getD i dfltAtom).pos)) ∧
            (∀ k, k < j →
              sqnorm ((fragment.getD j dfltAtom).pos - (sbu.getD i dfltAtom).pos)
                < sqnorm ((fragment.getD k dfltAtom).pos - (sbu.getD i dfltAtom).pos))) := by
  have hall : List.Forall₂ (fun a b => tagAtom sqrtFn fragment a = .ok b) sbu out :=
    (mapM_ok_forall₂ _).mp hok
  have hlen : out.length = sbu.length := (List.Forall₂.length_eq hall).symm
  refine ⟨hlen, ?_⟩
  intro i hi
  have hpair : tagAtom sqrtFn fragment (sbu.getD i dfltAtom)
      = .ok (out.getD i dfltAtom) := forall₂_getD hall i dfltAtom dfltAtom hi
  constructor
  · intro hnx
    unfold tagAtom at hpair
    rw [if_pos hnx] at hpair
    exact (Except.ok.inj hpair).symm
  · intro hx
    obtain ⟨hfne, hb⟩ :=
      tagAtom_spec_X sqrtFn fragment (sbu.getD i dfltAtom) _ hx hpair
    have hmaplen : (fragment.map
        (fun fa => normF sqrtFn (fa.pos - (sbu.getD i dfltAtom).pos))).length
        = fragment.length := by simp
    have hmapne : fragment.map
        (fun fa => normF sqrtFn (fa.pos - (sbu.getD i dfltAtom).pos)) ≠ [] := by
      cases fragment with
      | nil => exact absurd rfl hfne
      | cons f fs => simp
    have hj0 : argminIdx (fragment.map
        (fun fa => normF sqrtFn (fa.pos - (sbu.getD i dfltAtom).pos)))
        < fragment.length := by
      rw [← hmaplen]
      exact argminIdx_lt_length _ hmapne
    refine ⟨_, hj0, hb, ?_, ?_⟩
    · intro k hk
      have hle := argminIdx_le
        (fragment.map (fun fa => normF sqrtFn (fa.pos - (sbu.getD i dfltAtom).pos)))
        k (by rwa [hmaplen])
      rw [getD_map_of_lt _ _ _ hj0 dfltAtom 0,
          getD_map_of_lt _ _ _ hk dfltAtom 0] at hle
      by_contra hcon
      push_neg at hcon
      exact absurd ((hmono _ _ (sqnorm_nonneg _) (sqnorm_nonneg _)).mpr hcon)
        (not_lt.mpr hle)
    · intro k hkj
      have hklt : k < fragment.length := lt_trans hkj hj0
      have hlt := argminIdx_first
        (fragment.map (fun fa => normF sqrtFn (fa.pos - (sbu.getD i dfltAtom).pos)))
        k hkj
      rw [getD_map_of_lt _ _ _ hj0 dfltAtom 0,
          getD_map_of_lt _ _ _ hklt dfltAtom 0] at hlt
      exact (hmono _ _ (sqnorm_nonneg _) (sqnorm_nonneg _)).mp hlt

/-- Witness for C6 at a concrete input, with the identity as (monotone)
square root: the dummy of `wTagSbu` gets the tag of the first of the two
equidistant fragment points, the carbon is unchanged. -/
theorem c6_witness :
    wTagOut.length = wTagSbu.length ∧
    ∀ i, i < wTagSbu.length →
      ((wTagSbu.getD i dfltAtom).symbol ≠ "X" →
          wTagOut.getD i dfltAtom = wTagSbu.getD i dfltAtom) ∧
      ((wTagSbu.getD i dfltAtom).symbol = "X" →
          ∃ j, j < wTagFrag.length ∧
            wTagOut.getD i dfltAtom
              = { wTagSbu.getD i dfltAtom with
                  tag := (wTagFrag.getD j dfltAtom).tag } ∧
            (∀ k, k < wTagFrag.length →
              sqnorm ((wTagFrag.getD j dfltAtom).pos - (wTagSbu.getD i dfltAtom).pos)
                ≤ sqnorm ((wTagFrag.getD k dfltAtom).pos - (wTagSbu.getD i dfltAtom).pos)) ∧
            (∀ k, k < j →
              sqnorm ((wTagFrag.getD j dfltAtom).pos - (wTagSbu.getD i dfltAtom).pos)
                < sqnorm ((wTagFrag.getD k dfltAtom).pos - (wTagSbu.getD i dfltAtom).pos))) :=
  c6_tag_nearest id (fun p q _ _ => Iff.rfl) wTagSbu wTagFrag wTagOut
    (by with_unfolding_all decide)

/-! ## Claim C4 -/

theorem broadcastDiv_eq_of_length_eq (a b : List ℚ) (h : a.length = b.length) :
    broadcastDiv a b = .ok (List.zipWith (· / ·) a b) := by
  unfold broadcastDiv
  rw [if_pos h]

theorem alignPrep_fragment_cop (fragment sbu : List PyAtom) :
    (alignPrep fragment sbu).fragment_cop = centroid (fragment.map (·.pos)) := rfl

theorem alignPrep_sbu_sizes (sqrtFn : ℚ → ℚ) (fragment sbu : List PyAtom) :
    (alignPrep fragment sbu).sbu_X.map (fun a => normF sqrtFn a.pos)
      = (sbu.filter (fun a => a.symbol = "X")).map
          (fun a => sqrtFn (sqnorm (a.pos - centroid (sbu.map (·.pos))))) := by
  simp only [alignPrep, List.filter_map, List.map_map]
  rfl

theorem alignPrep_fragment_sizes (sqrtFn : ℚ → ℚ) (fragment sbu : List PyAtom) :
    (alignPrep fragment sbu).fragC.map (fun a => normF sqrtFn a.pos)
      = fragment.map
          (fun a => sqrtFn (sqnorm (a.pos - centroid (fragment.map (·.pos))))) := by
  simp only [alignPrep, List.map_map]
  rfl

/-- C4: whenever `align` returns a result, the scale vector it returns is
exactly `2 × mean(unit connection-point distance from the unit centroid /
fragment point distance from the fragment centroid)` times a unit direction —
the normalized pre-translation fragment centroid, except that a centroid of
norm below `1e-6` selects the normalized all-ones direction
(`specScaleVec`, written from the spec's words). -/
theorem c4_scale_vector_formula (sqrtFn : ℚ → ℚ) (R : Mat3Q)
    (fragment sbu : List PyAtom) (out : List PyAtom × Vec3)
    (hok : align sqrtFn R fragment sbu = .ok out) :
    out.2 = specScaleVec sqrtFn fragment sbu := by
  simp only [align] at hok
  cases halpha : alignAlphaE sqrtFn fragment sbu with
  | error e =>
    simp only [halpha] at hok
    exact Except.noConfusion hok
  | ok alpha =>
    simp only [halpha] at hok
    split at hok
    case isTrue => exact Except.noConfusion hok
    case isFalse =>
      split at hok
      case isFalse => exact Except.noConfusion hok
      case isTrue hcond =>
        split at hok
        case h_1 e htag => exact Except.noConfusion hok
        case h_2 tagged htag =>
          have hout : out = (tagged, alpha) := (Except.ok.inj hok).symm
          rw [hout]
          -- now show `alpha = specScaleVec sqrtFn fragment sbu`
          have hlen : (alignPrep fragment sbu).sbu_X.length
              = (alignPrep fragment sbu).fragC.length := by
            simpa only [List.length_map] using hcond
          have hslen : ((alignPrep fragment sbu).sbu_X.map
                (fun a => normF sqrtFn a.pos)).length
              = ((alignPrep fragment sbu).fragC.map
                (fun a => normF sqrtFn a.pos)).length := by
            simpa only [List.length_map] using hlen
          simp only [alignAlphaE, broadcastDiv_eq_of_length_eq _ _ hslen]
            at halpha
          have halpha' := Except.ok.inj halpha
          rw [← halpha', alignPrep_sbu_sizes, alignPrep_fragment_sizes,
            alignPrep_fragment_cop]
          simp only [specScaleVec, normF]

/-- Witness for C4 at a concrete input: the scale vector returned by `align`
on `wFrag`/`wSbu` equals the spec formula's value. -/
theorem c4_witness :
    ((wAligned, (⟨4, 4, 4⟩ : Vec3)) : List PyAtom × Vec3).2
      = specScaleVec ratSqrt wFrag wSbu :=
  c4_scale_vector_formula ratSqrt 1 wFrag wSbu (wAligned, ⟨4, 4, 4⟩)
    (by with_unfolding_all decide)

/-! ## Claim C5 -/

/-- A `Forall₂` produces every member of its right list from a member of its
left list. -/
theorem forall₂_mem_right {α β : Type} {R : α → β → Prop} :
    ∀ {l : List α} {l' : List β}, List.Forall₂ R l l' →
      ∀ b ∈ l', ∃ a ∈ l, R a b := by
  intro l l' h
  induction h with
  | nil => intro b hb; cases hb
  | cons hab hrest ih =>
    intro b hb
    rcases List.mem_cons.mp hb with rfl | hb'
    · exact ⟨_, List.mem_cons_self _ _, hab⟩
    · obtain ⟨a, ha, hr⟩ := ih b hb'
      exact ⟨a, List.mem_cons_of_mem _ ha, hr⟩

/-- If some element of the list fails, the whole `mapM` fails. -/
theorem mapM_error_of_mem {α β : Type} (f : α → Except PyErr β) :
    ∀ (l : List α), (∃ a ∈ l, ∃ e, f a = .error e) →
      ∃ e, l.mapM f = .error e := by
  intro l
  induction l with
  | nil =>
    rintro ⟨a, ha, -⟩
    cases ha
  | cons a rest ih =>
    rintro ⟨b, hb, e, hfb⟩
    rw [List.mapM_cons]
    cases hfa : f a with
    | error e' => exact ⟨e', rfl⟩
    | ok v =>
      rcases List.mem_cons.mp hb with rfl | hb'
      · rw [hfa] at hfb
        exact Except.noConfusion hfb
      · obtain ⟨e'', hrest⟩ := ih ⟨b, hb', e, hfb⟩
        refine ⟨e'', ?_⟩
        rw [hrest]
        rfl

/-- The per-slot draw fails when no named sbu has the slot's shape. -/
theorem sbuForSlot_error (shapeOf : List PyAtom → String) (pick : Nat → Nat)
    (lib : List (String × LibAtoms)) (sbu_names : List String)
    (slot : Nat × String)
    (hshape : ∀ n ∈ sbu_names, ∀ la, lib.lookup n = some la →
        shapeOf la.atoms ≠ slot.2) :
    ∃ e, sbuForSlot shapeOf pick lib sbu_names slot = .error e := by
  cases hm : sbu_names.mapM (fun n =>
      match lib.lookup n with
      | none => Except.error PyErr.keyError
      | some la => Except.ok (mkSBU shapeOf n la)) with
  | error e =>
    refine ⟨e, ?_⟩
    show (sbu_names.mapM _ >>= _) = Except.error e
    rw [hm]
    rfl
  | ok sbus =>
    have hempty : sbus.filter (fun s => s.shape = slot.2) = [] := by
      rw [List.filter_eq_nil_iff]
      intro s hs
      obtain ⟨n, hn, hg⟩ := forall₂_mem_right ((mapM_ok_forall₂ _).mp hm) s hs
      cases hlk : lib.lookup n with
      | none =>
        rw [hlk] at hg
        exact Except.noConfusion hg
      | some la =>
        rw [hlk] at hg
        have hs' : s = mkSBU shapeOf n la := (Except.ok.inj hg).symm
        rw [hs']
        simpa [mkSBU] using hshape n hn la hlk
    refine ⟨.indexError, ?_⟩
    show (sbu_names.mapM _ >>= _) = Except.error PyErr.indexError
    rw [hm]
    show (randomChoice (pick slot.1) (sbus.filter (fun s => s.shape = slot.2))
        >>= fun chosen => pure (slot.1, chosen)) = Except.error PyErr.indexError
    rw [hempty]
    rfl

/-- C5: when some slot's shape label matches no candidate building unit
among the supplied names, `get_sbu_dict` fails, and the whole assembly
request `make` (invoked without an explicit slot assignment) fails with an
error — no partial `Framework` is returned. -/
theorem c5_unfillable_slot_aborts (sqrtFn : ℚ → ℚ) (Rof : Nat → Mat3Q)
    (analyzeMM : List PyAtom → List (Nat × Nat) × List String)
    (opt : Vec3 → ℚ) (shapeOf : List PyAtom → String) (pick : Nat → Nat)
    (lib : List (String × LibAtoms)) (topo : TopologyRec)
    (sbu_names : List String)
    (hslot : ∃ p ∈ topo.shapes, ∀ n ∈ sbu_names, ∀ la,
        lib.lookup n = some la → shapeOf la.atoms ≠ p.2) :
    (∃ e, get_sbu_dict shapeOf pick lib topo.shapes sbu_names = .error e) ∧
    (∃ e, make sqrtFn Rof analyzeMM opt shapeOf pick lib topo sbu_names none
        = .error e) := by
  obtain ⟨p, hp, hcond⟩ := hslot
  have hgd : ∃ e, get_sbu_dict shapeOf pick lib topo.shapes sbu_names
      = .error e := by
    apply mapM_error_of_mem
    obtain ⟨e, he⟩ := sbuForSlot_error shapeOf pick lib sbu_names p hcond
    exact ⟨p, hp, e, he⟩
  refine ⟨hgd, ?_⟩
  obtain ⟨e, he⟩ := hgd
  refine ⟨e, ?_⟩
  show (get_sbu_dict shapeOf pick lib topo.shapes sbu_names
      >>= fun items => makeCore sqrtFn Rof analyzeMM opt topo items)
      = Except.error e
  rw [he]
  rfl

/-- Witness for C5 at a concrete input: the single slot is `"triangular"`,
the only candidate is `"linear"`; both `get_sbu_dict` and `make` error. -/
theorem c5_witness :
    (∃ e, get_sbu_dict (fun _ => "linear") (fun _ => 0) wLib wTopoTri.shapes
        ["benzene"] = .error e)
    ∧ (∃ e, make ratSqrt (fun _ => 1) (fun _ => ([], [])) (fun _ => 1)
        (fun _ => "linear") (fun _ => 0) wLib wTopoTri ["benzene"] none
        = .error e) := by
  apply c5_unfillable_slot_aborts
  refine ⟨(0, "triangular"), by decide, ?_⟩
  intro n hn la hlk
  have hn' : n = "benzene" := by simpa using hn
  subst hn'
  have hla : la = { atoms := wSbu } := by
    simpa [wLib, List.lookup] using hlk.symm
  subst hla
  decide

/-! ## Claims C7 and C8: the `make` loop -/

theorem makeStep_ok_iff (sqrtFn : ℚ → ℚ) (Rof : Nat → Mat3Q)
    (analyzeMM : List PyAtom → List (Nat × Nat) × List String)
    (topo : TopologyRec) (st st' : Framework × Vec3) (it : Nat × SBUrec) :
    makeStep sqrtFn Rof analyzeMM topo st it = .ok st' ↔
      (stepOK sqrtFn Rof topo it ∧
        st' = makeStepPure sqrtFn Rof analyzeMM topo st it) := by
  cases hlk : topo.fragments.lookup it.1 with
  | none =>
    constructor
    · intro h
      simp only [makeStep, hlk] at h
      exact Except.noConfusion h
    · rintro ⟨⟨frag', hlk', -⟩, -⟩
      rw [hlk] at hlk'
      exact Option.noConfusion hlk'
  | some frag =>
    cases hal : align sqrtFn (Rof it.1) frag it.2.atoms with
    | error e =>
      constructor
      · intro h
        simp only [makeStep, hlk, hal] at h
        exact Except.noConfusion h
      · rintro ⟨⟨frag', hlk', r, hal'⟩, -⟩
        rw [hlk] at hlk'
        cases Option.some.inj hlk'
        rw [hal] at hal'
        exact Except.noConfusion hal'
    | ok r =>
      cases r with
      | mk atoms f =>
        constructor
        · intro h
          simp only [makeStep, hlk, hal] at h
          refine ⟨⟨frag, hlk, (atoms, f), hal⟩, ?_⟩
          rw [← Except.ok.inj h]
          simp [makeStepPure, slotEntry, slotAtoms, slotScale, hlk, hal]
        · rintro ⟨-, rfl⟩
          simp [makeStep, makeStepPure, slotEntry, slotAtoms, slotScale,
            hlk, hal]

theorem makeLoop_ok_iff (sqrtFn : ℚ → ℚ) (Rof : Nat → Mat3Q)
    (analyzeMM : List PyAtom → List (Nat × Nat) × List String)
    (topo : TopologyRec) :
    ∀ (items : List (Nat × SBUrec)) (st0 st : Framework × Vec3),
      items.foldlM (makeStep sqrtFn Rof analyzeMM topo) st0 = .ok st ↔
        ((∀ it ∈ items, stepOK sqrtFn Rof topo it) ∧
          st = items.foldl (makeStepPure sqrtFn Rof analyzeMM topo) st0) := by
  intro items
  induction items with
  | nil =>
    intro st0 st
    simp only [List.foldlM_nil, List.foldl_nil]
    constructor
    · intro h
      exact ⟨fun it hit => absurd hit (List.not_mem_nil it),
        (Except.ok.inj h).symm⟩
    · rintro ⟨-, rfl⟩
      rfl
  | cons it rest ih =>
    intro st0 st
    rw [List.foldlM_cons]
    constructor
    · intro h
      cases hstep : makeStep sqrtFn Rof analyzeMM topo st0 it with
      | error e =>
        rw [hstep] at h
        exact Except.noConfusion h
      | ok st1 =>
        rw [hstep] at h
        obtain ⟨hok1, hst1⟩ :=
          (makeStep_ok_iff sqrtFn Rof analyzeMM topo st0 st1 it).mp hstep
        obtain ⟨hrest, hfold⟩ := (ih st1 st).mp h
        refine ⟨?_, ?_⟩
        · intro x hx
          rcases List.mem_cons.mp hx with rfl | hx'
          · exact hok1
          · exact hrest x hx'
        · rw [List.foldl_cons, ← hst1]
          exact hfold
    · rintro ⟨hall, rfl⟩
      have hok1 := hall it (List.mem_cons_self it rest)
      have hstep : makeStep sqrtFn Rof analyzeMM topo st0 it
          = .ok (makeStepPure sqrtFn Rof analyzeMM topo st0 it) :=
        (makeStep_ok_iff sqrtFn Rof analyzeMM topo st0 _ it).mpr ⟨hok1, rfl⟩
      rw [hstep]
      rw [List.foldl_cons]
      exact (ih _ _).mpr
        ⟨fun x hx => hall x (List.mem_cons_of_mem _ hx), rfl⟩

theorem foldl_pure_entries (sqrtFn : ℚ → ℚ) (Rof : Nat → Mat3Q)
    (analyzeMM : List PyAtom → List (Nat × Nat) × List String)
    (topo : TopologyRec) :
    ∀ (items : List (Nat × SBUrec)) (st0 : Framework × Vec3),
      (items.foldl (makeStepPure sqrtFn Rof analyzeMM topo) st0).1.entries
        = st0.1.entries ++ items.map (slotEntry sqrtFn Rof analyzeMM topo) := by
  intro items
  induction items with
  | nil => intro st0; simp
  | cons it rest ih =>
    intro st0
    rw [List.foldl_cons, ih]
    simp [makeStepPure, Framework.append]

theorem foldl_pure_alpha (sqrtFn : ℚ → ℚ) (Rof : Nat → Mat3Q)
    (analyzeMM : List PyAtom → List (Nat × Nat) × List String)
    (topo : TopologyRec) :
    ∀ (items : List (Nat × SBUrec)) (st0 : Framework × Vec3),
      (items.foldl (makeStepPure sqrtFn Rof analyzeMM topo) st0).2
        = st0.2 + (items.map (slotScale sqrtFn Rof topo)).sum := by
  intro items
  induction items with
  | nil => intro st0; simp
  | cons it rest ih =>
    intro st0
    rw [List.foldl_cons, ih]
    simp [makeStepPure, add_assoc]

theorem tagAtom_symbol (sqrtFn : ℚ → ℚ) (fragment : List PyAtom)
    (a b : PyAtom) (h : tagAtom sqrtFn fragment a = .ok b) :
    b.symbol = a.symbol := by
  unfold tagAtom at h
  by_cases hx : a.symbol ≠ "X"
  · rw [if_pos hx] at h
    rw [← Except.ok.inj h]
  · rw [if_neg hx] at h
    cases fragment with
    | nil => exact Except.noConfusion h
    | cons f fs => rw [← Except.ok.inj h]

theorem tag_symbols (sqrtFn : ℚ → ℚ) (sbu fragment out : List PyAtom)
    (h : tag sqrtFn sbu fragment = .ok out) :
    out.map (·.symbol) = sbu.map (·.symbol) := by
  have hall := (mapM_ok_forall₂ (tagAtom sqrtFn fragment)).mp h
  clear h
  induction hall with
  | nil => rfl
  | cons hab hrest ih =>
    simp only [List.map_cons]
    rw [tagAtom_symbol _ _ _ _ hab, ih]

theorem align_symbols (sqrtFn : ℚ → ℚ) (R : Mat3Q) (fragment sbu : List PyAtom)
    (r : List PyAtom × Vec3) (hok : align sqrtFn R fragment sbu = .ok r) :
    r.1.map (·.symbol) = sbu.map (·.symbol) := by
  simp only [align] at hok
  cases halpha : alignAlphaE sqrtFn fragment sbu with
  | error e =>
    simp only [halpha] at hok
    exact Except.noConfusion hok
  | ok alpha =>
    simp only [halpha] at hok
    split at hok
    case isTrue => exact Except.noConfusion hok
    case isFalse =>
      split at hok
      case isFalse => exact Except.noConfusion hok
      case isTrue hcond =>
        split at hok
        case h_1 e htag => exact Except.noConfusion hok
        case h_2 tagged htag =>
          rw [← Except.ok.inj hok]
          have hsy := tag_symbols _ _ _ _ htag
          rw [hsy]
          simp only [alignPrep, List.map_map]
          rfl

theorem slotAtoms_symbols (sqrtFn : ℚ → ℚ) (Rof : Nat → Mat3Q)
    (topo : TopologyRec) (it : Nat × SBUrec) :
    (slotAtoms sqrtFn Rof topo it).map (·.symbol)
      = it.2.atoms.map (·.symbol) := by
  cases hlk : topo.fragments.lookup it.1 with
  | none => simp [slotAtoms, hlk]
  | some frag =>
    cases hal : align sqrtFn (Rof it.1) frag it.2.atoms with
    | error e => simp [slotAtoms, hlk, hal]
    | ok r =>
      simp only [slotAtoms, hlk, hal]
      exact align_symbols _ _ _ _ _ hal

/-- C7: every successful `make` run returns a `Framework` with exactly one
aligned entry per slot of the slot assignment, in assignment order, and each
aligned unit has the same atom count and the same per-position element
symbols as the source building unit it was produced from. -/
theorem c7_assembly_complete (sqrtFn : ℚ → ℚ) (Rof : Nat → Mat3Q)
    (analyzeMM : List PyAtom → List (Nat × Nat) × List String)
    (opt : Vec3 → ℚ) (shapeOf : List PyAtom → String) (pick : Nat → Nat)
    (lib : List (String × LibAtoms)) (topo : TopologyRec)
    (sbu_names : List String) (items : List (Nat × SBUrec)) (fw : Framework)
    (hok : make sqrtFn Rof analyzeMM opt shapeOf pick lib topo sbu_names
        (some items) = .ok fw) :
    fw.entries.map (·.idx) = items.map (·.1) ∧
    List.Forall₂
      (fun (e : FwEntry) (it : Nat × SBUrec) =>
        e.atoms.length = it.2.atoms.length ∧
        e.atoms.map (·.symbol) = it.2.atoms.map (·.symbol))
      fw.entries items := by
  have hok' : (items.foldlM (makeStep sqrtFn Rof analyzeMM topo)
      ({ topologyAtoms := topo.atoms, entries := [] }, (0 : Vec3))
      >>= fun st => Except.ok (Framework.refine opt st.1 st.2)) = .ok fw := hok
  cases hfold : items.foldlM (makeStep sqrtFn Rof analyzeMM topo)
      ({ topologyAtoms := topo.atoms, entries := [] }, (0 : Vec3)) with
  | error e =>
    rw [hfold] at hok'
    exact Except.noConfusion hok'
  | ok st =>
    rw [hfold] at hok'
    have hfw : fw = Framework.refine opt st.1 st.2 := (Except.ok.inj hok').symm
    obtain ⟨hall, hst⟩ :=
      (makeLoop_ok_iff sqrtFn Rof analyzeMM topo items _ st).mp hfold
    constructor
    · rw [hfw]
      simp only [Framework.refine]
      rw [hst, foldl_pure_entries]
      simp only [List.nil_append, List.map_map]
      rfl
    · rw [hfw]
      simp only [Framework.refine]
      rw [hst, foldl_pure_entries]
      simp only [List.nil_append, List.map_map]
      rw [List.forall₂_map_left_iff, List.forall₂_same]
      intro it hit
      have hsym : ((slotAtoms sqrtFn Rof topo it).map
            (fun a => { a with
              pos := opt (items.foldl
                (makeStepPure sqrtFn Rof analyzeMM topo)
                ({ topologyAtoms := topo.atoms, entries := [] },
                  (0 : Vec3))).2 • a.pos })).map (·.symbol)
          = it.2.atoms.map (·.symbol) := by
        rw [List.map_map]
        rw [show ((fun (a : PyAtom) => a.symbol) ∘ fun a => { a with
              pos := opt (items.foldl
                (makeStepPure sqrtFn Rof analyzeMM topo)
                ({ topologyAtoms := topo.atoms, entries := [] },
                  (0 : Vec3))).2 • a.pos }) = fun (a : PyAtom) => a.symbol
          from rfl]
        exact slotAtoms_symbols sqrtFn Rof topo it
      refine ⟨?_, hsym⟩
      have := congrArg List.length hsym
      simpa using this

/-- Witness for C7 at a concrete input: a one-slot topology assembled from
`wItems` gives the framework `wFw` with one entry, same atom count and
symbols as `wSbu`. -/
theorem c7_witness :
    wFw.entries.map (·.idx) = wItems.map (·.1) ∧
    List.Forall₂
      (fun (e : FwEntry) (it : Nat × SBUrec) =>
        e.atoms.length = it.2.atoms.length ∧
        e.atoms.map (·.symbol) = it.2.atoms.map (·.symbol))
      wFw.entries wItems :=
  c7_assembly_complete ratSqrt (fun _ => 1) (fun _ => ([], [])) (fun _ => 1)
    (fun _ => "linear") (fun _ => 0) wLib wTopo ["benzene"] wItems wFw
    (by with_unfolding_all decide)

/-- C8: on every successful `make` run, the accumulated scale handed to
refinement is the plain vector sum of the per-slot scale vectors returned by
`align`, and it is independent of the order in which the slots are
processed: any permutation of the slot assignment also succeeds and hands
the same accumulated scale to refinement. -/
theorem c8_scale_sum_order_independent (sqrtFn : ℚ → ℚ) (Rof : Nat → Mat3Q)
    (analyzeMM : List PyAtom → List (Nat × Nat) × List String)
    (opt : Vec3 → ℚ) (shapeOf : List PyAtom → String) (pick : Nat → Nat)
    (lib : List (String × LibAtoms)) (topo : TopologyRec)
    (sbu_names : List String) (items : List (Nat × SBUrec)) (fw : Framework)
    (hok : make sqrtFn Rof analyzeMM opt shapeOf pick lib topo sbu_names
        (some items) = .ok fw) :
    fw.alpha0 = some ((items.map (slotScale sqrtFn Rof topo)).sum) ∧
    ∀ items' : List (Nat × SBUrec), items.Perm items' →
      ∃ fw', make sqrtFn Rof analyzeMM opt shapeOf pick lib topo sbu_names
          (some items') = .ok fw' ∧ fw'.alpha0 = fw.alpha0 := by
  have hok' : (items.foldlM (makeStep sqrtFn Rof analyzeMM topo)
      ({ topologyAtoms := topo.atoms, entries := [] }, (0 : Vec3))
      >>= fun st => Except.ok (Framework.refine opt st.1 st.2)) = .ok fw := hok
  cases hfold : items.foldlM (makeStep sqrtFn Rof analyzeMM topo)
      ({ topologyAtoms := topo.atoms, entries := [] }, (0 : Vec3)) with
  | error e =>
    rw [hfold] at hok'
    exact Except.noConfusion hok'
  | ok st =>
    rw [hfold] at hok'
    have hfw : fw = Framework.refine opt st.1 st.2 := (Except.ok.inj hok').symm
    obtain ⟨hall, hst⟩ :=
      (makeLoop_ok_iff sqrtFn Rof analyzeMM topo items _ st).mp hfold
    have halpha : fw.alpha0
        = some ((items.map (slotScale sqrtFn Rof topo)).sum) := by
      rw [hfw]
      simp only [Framework.refine]
      rw [hst, foldl_pure_alpha]
      rw [zero_add]
    refine ⟨halpha, ?_⟩
    intro items' hperm
    have hall' : ∀ it ∈ items', stepOK sqrtFn Rof topo it :=
      fun it hit => hall it (hperm.mem_iff.mpr hit)
    have hfold' : items'.foldlM (makeStep sqrtFn Rof analyzeMM topo)
        ({ topologyAtoms := topo.atoms, entries := [] }, (0 : Vec3))
        = .ok (items'.foldl (makeStepPure sqrtFn Rof analyzeMM topo)
            ({ topologyAtoms := topo.atoms, entries := [] }, (0 : Vec3))) :=
      (makeLoop_ok_iff sqrtFn Rof analyzeMM topo items' _ _).mpr ⟨hall', rfl⟩
    refine ⟨Framework.refine opt
        (items'.foldl (makeStepPure sqrtFn Rof analyzeMM topo)
          ({ topologyAtoms := topo.atoms, entries := [] }, (0 : Vec3))).1
        (items'.foldl (makeStepPure sqrtFn Rof analyzeMM topo)
          ({ topologyAtoms := topo.atoms, entries := [] }, (0 : Vec3))).2,
      ?_, ?_⟩
    · show (items'.foldlM (makeStep sqrtFn Rof analyzeMM topo)
          ({ topologyAtoms := topo.atoms, entries := [] }, (0 : Vec3))
          >>= fun st => Except.ok (Framework.refine opt st.1 st.2)) = _
      rw [hfold']
      rfl
    · simp only [Framework.refine]
      rw [foldl_pure_alpha, zero_add, halpha]
      have hsum : (items'.map (slotScale sqrtFn Rof topo)).sum
          = (items.map (slotScale sqrtFn Rof topo)).sum :=
        (List.Perm.sum_eq (List.Perm.map _ hperm)).symm
      rw [hsum]

/-- Witness for C8 at a concrete input: the single-slot assembly's stored
seed equals the (one-element) sum of per-slot scales, and every permutation
of the assignment gives the same seed. -/
theorem c8_witness :
    wFw.alpha0 = some ((wItems.map
        (slotScale ratSqrt (fun _ => 1) wTopo)).sum) ∧
    ∀ items' : List (Nat × SBUrec), wItems.Perm items' →
      ∃ fw', make ratSqrt (fun _ => 1) (fun _ => ([], [])) (fun _ => 1)
          (fun _ => "linear") (fun _ => 0) wLib wTopo ["benzene"]
          (some items') = .ok fw' ∧ fw'.alpha0 = wFw.alpha0 :=
  c8_scale_sum_order_independent ratSqrt (fun _ => 1) (fun _ => ([], []))
    (fun _ => 1) (fun _ => "linear") (fun _ => 0) wLib wTopo ["benzene"]
    wItems wFw (by with_unfolding_all decide)

/-! ## Claim C9: the store model -/

theorem getD_set_ne {α : Type} (d v : α) :
    ∀ (l : List α) (i r : Nat), r ≠ i → (l.set i v).getD r d = l.getD r d := by
  intro l
  induction l with
  | nil => intro i r _; rfl
  | cons a l ih =>
    intro i r hne
    cases i with
    | zero =>
      cases r with
      | zero => exact absurd rfl hne
      | succ r' => rfl
    | succ i' =>
      cases r with
      | zero => rfl
      | succ r' =>
        simp only [List.set_cons_succ, List.getD_cons_succ]
        exact ih i' r' (fun hc => hne (by rw [hc]))

theorem getD_append_left {α : Type} (d : α) :
    ∀ (l t : List α) (r : Nat), r < l.length → (l ++ t).getD r d = l.getD r d := by
  intro l
  induction l with
  | nil => intro t r hr; cases hr
  | cons a l ih =>
    intro t r hr
    cases r with
    | zero => rfl
    | succ r' =>
      simp only [List.cons_append, List.getD_cons_succ]
      exact ih t r' (by simpa using hr)

theorem hread_write_ne (h : Heap) (i r : Nat) (v : List PyAtom) (hne : r ≠ i) :
    hread (hwrite h i v) r = hread h r :=
  getD_set_ne [] v h i r hne

theorem hread_append (h t : Heap) (r : Nat) (hr : r < h.length) :
    hread (h ++ t) r = hread h r :=
  getD_append_left [] h t r hr

theorem hwrite_length (h : Heap) (i : Nat) (v : List PyAtom) :
    (hwrite h i v).length = h.length := by
  simp [hwrite]

/-- All mutations of the store-level `align` body land on the two copy
references: any other reference is untouched, and the store's size does not
change. -/
theorem alignHbody_preserves (sqrtFn : ℚ → ℚ) (R : Mat3Q) (h2 : Heap)
    (sr fr : Nat) :
    (∀ r, r ≠ sr → r ≠ fr →
        hread (alignHbody sqrtFn R h2 sr fr).2 r = hread h2 r)
    ∧ (alignHbody sqrtFn R h2 sr fr).2.length = h2.length := by
  simp only [alignHbody]
  repeat' split
  all_goals
    refine ⟨fun r hrs hrf => ?_, ?_⟩
    · try dsimp only
      try simp only [hread_write_ne _ _ _ _ hrs, hread_write_ne _ _ _ _ hrf]
    · try dsimp only
      try simp only [hwrite_length]

/-- `align` at the store level: references below the pre-call store size are
untouched (the copies live above them), and the store only grows. -/
theorem alignH_spec (sqrtFn : ℚ → ℚ) (R : Mat3Q) (h : Heap)
    (fragRef sbuRef : Nat) :
    (∀ r, r < h.length →
        hread (alignH sqrtFn R h fragRef sbuRef).2 r = hread h r)
    ∧ h.length ≤ (alignH sqrtFn R h fragRef sbuRef).2.length := by
  have hb := alignHbody_preserves sqrtFn R
    ((h ++ [hread h sbuRef]) ++ [hread (h ++ [hread h sbuRef]) fragRef])
    h.length (h ++ [hread h sbuRef]).length
  constructor
  · intro r hr
    have h1 : hread (alignH sqrtFn R h fragRef sbuRef).2 r
        = hread ((h ++ [hread h sbuRef])
            ++ [hread (h ++ [hread h sbuRef]) fragRef]) r := by
      apply hb.1 r (Nat.ne_of_lt hr)
      intro hc
      rw [hc] at hr
      simp only [List.length_append, List.length_cons, List.length_nil] at hr
      omega
    have l1 : r < (h ++ [hread h sbuRef]).length := by
      simp only [List.length_append, List.length_cons, List.length_nil]
      omega
    rw [h1, hread_append _ _ _ l1, hread_append _ _ _ hr]
  · have hlen := hb.2
    show h.length ≤ (alignHbody sqrtFn R _ _ _).2.length
    rw [hlen]
    simp only [List.length_append, List.length_cons, List.length_nil]
    omega

/-- The `make` loop at the store level: no reference that existed before the
loop is ever written. -/
theorem makeLoopH_preserves (sqrtFn : ℚ → ℚ) (Rof : Nat → Mat3Q)
    (fragRefs : List (Nat × Nat)) :
    ∀ (items : List (Nat × Nat)) (h : Heap) (acc : List (Nat × Nat) × Vec3)
      (r : Nat), r < h.length →
      hread (makeLoopH sqrtFn Rof fragRefs items h acc).2 r = hread h r := by
  intro items
  induction items with
  | nil => intro h acc r hr; rfl
  | cons it rest ih =>
    intro h acc r hr
    simp only [makeLoopH]
    split
    · rfl
    · rename_i frRef hlkp
      split
      · rename_i e h' heq
        have h'eq : h' = (alignH sqrtFn (Rof it.1) h frRef it.2).2 :=
          (congrArg Prod.snd heq).symm
        rw [h'eq]
        exact (alignH_spec sqrtFn (Rof it.1) h frRef it.2).1 r hr
      · rename_i sr f h' heq
        have h'eq : h' = (alignH sqrtFn (Rof it.1) h frRef it.2).2 :=
          (congrArg Prod.snd heq).symm
        have hr' : r < h'.length := by
          rw [h'eq]
          exact lt_of_lt_of_le hr
            (alignH_spec sqrtFn (Rof it.1) h frRef it.2).2
        rw [ih h' _ r hr', h'eq]
        exact (alignH_spec sqrtFn (Rof it.1) h frRef it.2).1 r hr

/-- C9: `make` and `align` never mutate their inputs.  In the store model
(`ase.Atoms` objects behind references, `align` starting with
`sbu = sbu.copy(); fragment = fragment.copy()` and mutating only through the
copies' references), every reference that exists before a call to `align` —
in particular the topology's fragment objects and the library's stored unit
atoms — holds exactly the same object afterwards, and likewise across the
whole `make` loop. -/
theorem c9_no_input_mutation (sqrtFn : ℚ → ℚ) (R : Mat3Q) (Rof : Nat → Mat3Q)
    (fragRefs : List (Nat × Nat)) :
    (∀ (h : Heap) (fragRef sbuRef r : Nat), r < h.length →
        hread (alignH sqrtFn R h fragRef sbuRef).2 r = hread h r)
    ∧ (∀ (items : List (Nat × Nat)) (h : Heap)
        (acc : List (Nat × Nat) × Vec3) (r : Nat), r < h.length →
        hread (makeLoopH sqrtFn Rof fragRefs items h acc).2 r = hread h r) :=
  ⟨fun h fragRef sbuRef r hr => (alignH_spec sqrtFn R h fragRef sbuRef).1 r hr,
   fun items h acc r hr =>
     makeLoopH_preserves sqrtFn Rof fragRefs items h acc r hr⟩

/-! ## Claim C1: the Procrustes rotation -/

/-- For an orthogonal matrix, every column has unit square sum. -/
theorem orth_col_sq (Q : Mat3R) (hQ : IsOrth Q) (i : Fin 3) :
    Q 0 i * Q 0 i + Q 1 i * Q 1 i + Q 2 i * Q 2 i = 1 := by
  have h : (Q.transpose * Q) i i = (1 : Mat3R) i i := by rw [hQ]
  simpa [Matrix.mul_apply, Matrix.transpose_apply, Fin.sum_univ_three,
    Matrix.one_apply] using h

/-- Every entry of an orthogonal matrix lies in `[-1, 1]` (stated per
column, for the three rows). -/
theorem orth_entry_bounds (Q : Mat3R) (hQ : IsOrth Q) (i : Fin 3) :
    (-1 ≤ Q 0 i ∧ Q 0 i ≤ 1) ∧ (-1 ≤ Q 1 i ∧ Q 1 i ≤ 1)
      ∧ (-1 ≤ Q 2 i ∧ Q 2 i ≤ 1) := by
  have h := orth_col_sq Q hQ i
  refine ⟨⟨?_, ?_⟩, ⟨?_, ?_⟩, ⟨?_, ?_⟩⟩ <;>
    nlinarith [mul_self_nonneg (Q 0 i), mul_self_nonneg (Q 1 i),
      mul_self_nonneg (Q 2 i),
      mul_self_nonneg (Q 0 i - 1), mul_self_nonneg (Q 0 i + 1),
      mul_self_nonneg (Q 1 i - 1), mul_self_nonneg (Q 1 i + 1),
      mul_self_nonneg (Q 2 i - 1), mul_self_nonneg (Q 2 i + 1)]

/-- The Procrustes objective written out entrywise. -/
theorem procObj_formula (M : Mat3Q) (Q : Mat3R) :
    procObj M Q =
      (M 0 0 : ℝ) * Q 0 0 + (M 1 0 : ℝ) * Q 1 0 + (M 2 0 : ℝ) * Q 2 0 +
      ((M 0 1 : ℝ) * Q 0 1 + (M 1 1 : ℝ) * Q 1 1 + (M 2 1 : ℝ) * Q 2 1) +
      ((M 0 2 : ℝ) * Q 0 2 + (M 1 2 : ℝ) * Q 1 2 + (M 2 2 : ℝ) * Q 2 2) := by
  simp only [procObj, Matrix.trace_fin_three, Matrix.mul_apply,
    Fin.sum_univ_three, Matrix.transpose_apply, mcast, Matrix.map_apply]

/-- C1 (amended): every solution `R` of the orthogonal Procrustes problem
on the point sets handed over by `align` is orthogonal (`R·Rᵀ = 1`) and has
determinant `1` or `−1`; determinant `+1` is NOT guaranteed (see the
counterexample: `scipy.linalg.orthogonal_procrustes` solves the
unconstrained orthogonal problem, which admits reflections). -/
theorem c1_procrustes_orthogonal (sqrtFn : ℚ → ℚ) (fragment sbu : List PyAtom)
    (X0 X1 : List Vec3) (R : Mat3R)
    (hx : alignX0X1 sqrtFn fragment sbu = .ok (X0, X1))
    (hR : IsProcrustesSol (procrustesM X0 X1) R) :
    R * R.transpose = 1 ∧ (R.det = 1 ∨ R.det = -1) := by
  have horth : R.transpose * R = 1 := hR.1
  refine ⟨Matrix.mul_eq_one_comm.mp horth, ?_⟩
  have hdet : R.det * R.det = 1 := by
    have h := congrArg Matrix.det horth
    rwa [Matrix.det_mul, Matrix.det_transpose, Matrix.det_one] at h
  exact mul_self_eq_one_iff.mp hdet

/-- Witness for C1 at a concrete input: the identity pairing `cFrag`/`cSbuId`
yields the positive-diagonal data matrix `diag(4/3, 8/3, 8/3)`, for which
the identity rotation is a Procrustes solution, orthogonal with
determinant `1`. -/
theorem c1_witness :
    alignX0X1 ratSqrt cFrag cSbuId = .ok (wX0, wX1) ∧
    IsProcrustesSol (procrustesM wX0 wX1) 1 ∧
    ((1 : Mat3R) * (1 : Mat3R).transpose = 1 ∧
      ((1 : Mat3R).det = 1 ∨ (1 : Mat3R).det = -1)) := by
  have hx : alignX0X1 ratSqrt cFrag cSbuId = .ok (wX0, wX1) := by
    with_unfolding_all decide
  have h00 : procrustesM wX0 wX1 0 0 = 4/3 := by with_unfolding_all decide
  have h11 : procrustesM wX0 wX1 1 1 = 8/3 := by with_unfolding_all decide
  have h22 : procrustesM wX0 wX1 2 2 = 8/3 := by with_unfolding_all decide
  have h01 : procrustesM wX0 wX1 0 1 = 0 := by with_unfolding_all decide
  have h02 : procrustesM wX0 wX1 0 2 = 0 := by with_unfolding_all decide
  have h10 : procrustesM wX0 wX1 1 0 = 0 := by with_unfolding_all decide
  have h12 : procrustesM wX0 wX1 1 2 = 0 := by with_unfolding_all decide
  have h20 : procrustesM wX0 wX1 2 0 = 0 := by with_unfolding_all decide
  have h21 : procrustesM wX0 wX1 2 1 = 0 := by with_unfolding_all decide
  have hsol : IsProcrustesSol (procrustesM wX0 wX1) 1 := by
    constructor
    · show (1 : Mat3R).transpose * 1 = 1
      rw [Matrix.transpose_one, mul_one]
    · intro Q hQ
      rw [procObj_formula, procObj_formula, h00, h01, h02, h10, h11, h12,
        h20, h21, h22]
      have b00 := (orth_entry_bounds Q hQ 0).1
      have b11 := (orth_entry_bounds Q hQ 1).2.1
      have b22 := (orth_entry_bounds Q hQ 2).2.2
      have e00 : (1 : Mat3R) 0 0 = 1 := rfl
      have e11 : (1 : Mat3R) 1 1 = 1 := rfl
      have e22 : (1 : Mat3R) 2 2 = 1 := rfl
      rw [e00, e11, e22]
      push_cast
      nlinarith [b00.2, b11.2, b22.2]
  exact ⟨hx, hsol,
    c1_procrustes_orthogonal ratSqrt cFrag cSbuId wX0 wX1 1 hx hsol⟩

set_option maxHeartbeats 2000000 in
/-- C1 counterexample: the flipped pairing `cFrag`/`cSbuFlip` passes the
point sets `cX0`/`wX1` to the Procrustes step (with the exact square root on
every value the pipeline takes it at, certified by `ratSqrt 1 = 1` and
`ratSqrt 9 = 3`); the data matrix is `diag(4/3, 8/3, −8/3)`, whose unique
Procrustes solution is the reflection `diag(1,1,−1)` with determinant `−1` —
so the rotation computed by the aligner is NOT always a proper rotation. -/
theorem c1_counterexample :
    alignX0X1 ratSqrt cFrag cSbuFlip = .ok (cX0, wX1) ∧
    ratSqrt 1 = 1 ∧ ratSqrt 9 = 3 ∧
    OnlyProcrustesSol (procrustesM cX0 wX1) reflZ ∧
    reflZ.det = -1 := by
  have h00 : procrustesM cX0 wX1 0 0 = 4/3 := by with_unfolding_all decide
  have h11 : procrustesM cX0 wX1 1 1 = 8/3 := by with_unfolding_all decide
  have h22 : procrustesM cX0 wX1 2 2 = -(8/3) := by with_unfolding_all decide
  have h01 : procrustesM cX0 wX1 0 1 = 0 := by with_unfolding_all decide
  have h02 : procrustesM cX0 wX1 0 2 = 0 := by with_unfolding_all decide
  have h10 : procrustesM cX0 wX1 1 0 = 0 := by with_unfolding_all decide
  have h12 : procrustesM cX0 wX1 1 2 = 0 := by with_unfolding_all decide
  have h20 : procrustesM cX0 wX1 2 0 = 0 := by with_unfolding_all decide
  have h21 : procrustesM cX0 wX1 2 1 = 0 := by with_unfolding_all decide
  have er00 : reflZ 0 0 = 1 := rfl
  have er11 : reflZ 1 1 = 1 := rfl
  have er22 : reflZ 2 2 = -1 := rfl
  have erorth : IsOrth reflZ := by
    show reflZ.transpose * reflZ = 1
    rw [show reflZ.transpose = reflZ from Matrix.diagonal_transpose _,
      show reflZ * reflZ = Matrix.diagonal (![1,1,-1] * ![1,1,-1])
        from Matrix.diagonal_mul_diagonal _ _]
    rw [show (![1,1,-1] * ![1,1,-1] : Fin 3 → ℝ) = fun _ => 1 from ?_]
    · exact Matrix.diagonal_one
    · funext i
      fin_cases i <;> norm_num
  have hmax : ∀ Q, IsOrth Q →
      procObj (procrustesM cX0 wX1) Q ≤ procObj (procrustesM cX0 wX1) reflZ := by
    intro Q hQ
    rw [procObj_formula, procObj_formula, h00, h01, h02, h10, h11, h12,
      h20, h21, h22, er00, er11, er22]
    have b00 := (orth_entry_bounds Q hQ 0).1
    have b11 := (orth_entry_bounds Q hQ 1).2.1
    have b22 := (orth_entry_bounds Q hQ 2).2.2
    push_cast
    nlinarith [b00.2, b11.2, b22.1]
  refine ⟨by with_unfolding_all decide, by with_unfolding_all decide,
    by with_unfolding_all decide, ⟨⟨erorth, hmax⟩, ?_⟩, ?_⟩
  · -- uniqueness: any solution equals the reflection
    rintro Q ⟨hQ, hQmax⟩
    have hle := hmax Q hQ
    have hge := hQmax reflZ erorth
    have heq : procObj (procrustesM cX0 wX1) Q
        = procObj (procrustesM cX0 wX1) reflZ := le_antisymm hle hge
    rw [procObj_formula, procObj_formula, h00, h01, h02, h10, h11, h12,
      h20, h21, h22, er00, er11, er22] at heq
    push_cast at heq
    clear hle hge hQmax hmax h00 h01 h02 h10 h11 h12 h20 h21 h22
    have b00 := (orth_entry_bounds Q hQ 0).1
    have b11 := (orth_entry_bounds Q hQ 1).2.1
    have b22 := (orth_entry_bounds Q hQ 2).2.2
    have q00 : Q 0 0 = 1 := by nlinarith [b00.2, b11.2, b22.1]
    have q11 : Q 1 1 = 1 := by nlinarith [b00.2, b11.2, b22.1]
    have q22 : Q 2 2 = -1 := by nlinarith [b00.2, b11.2, b22.1]
    have c0 := orth_col_sq Q hQ 0
    have c1 := orth_col_sq Q hQ 1
    have c2 := orth_col_sq Q hQ 2
    rw [q00] at c0
    rw [q11] at c1
    rw [q22] at c2
    have q10 : Q 1 0 = 0 := by nlinarith [mul_self_nonneg (Q 1 0), mul_self_nonneg (Q 2 0)]
    have q20 : Q 2 0 = 0 := by nlinarith [mul_self_nonneg (Q 1 0), mul_self_nonneg (Q 2 0)]
    have q01 : Q 0 1 = 0 := by nlinarith [mul_self_nonneg (Q 0 1), mul_self_nonneg (Q 2 1)]
    have q21 : Q 2 1 = 0 := by nlinarith [mul_self_nonneg (Q 0 1), mul_self_nonneg (Q 2 1)]
    have q02 : Q 0 2 = 0 := by nlinarith [mul_self_nonneg (Q 0 2), mul_self_nonneg (Q 1 2)]
    have q12 : Q 1 2 = 0 := by nlinarith [mul_self_nonneg (Q 0 2), mul_self_nonneg (Q 1 2)]
    have er01 : reflZ 0 1 = 0 := rfl
    have er02 : reflZ 0 2 = 0 := rfl
    have er10 : reflZ 1 0 = 0 := rfl
    have er12 : reflZ 1 2 = 0 := rfl
    have er20 : reflZ 2 0 = 0 := rfl
    have er21 : reflZ 2 1 = 0 := rfl
    apply Matrix.ext
    intro i j
    fin_cases i <;> fin_cases j
    · exact q00.trans er00.symm
    · exact q01.trans er01.symm
    · exact q02.trans er02.symm
    · exact q10.trans er10.symm
    · exact q11.trans er11.symm
    · exact q12.trans er12.symm
    · exact q20.trans er20.symm
    · exact q21.trans er21.symm
    · exact q22.trans er22.symm
  · -- determinant of the reflection
    have hdet : reflZ.det = ∏ i, (![1,1,-1] : Fin 3 → ℝ) i :=
      Matrix.det_diagonal
    have e0 : (![1,1,-1] : Fin 3 → ℝ) 0 = 1 := rfl
    have e1 : (![1,1,-1] : Fin 3 → ℝ) 1 = 1 := rfl
    have e2 : (![1,1,-1] : Fin 3 → ℝ) 2 = -1 := rfl
    rw [hdet, Fin.prod_univ_three, e0, e1, e2]
    norm_num

/-- Witness for C9 at a concrete store: after aligning (and after a full
one-slot loop), the fragment at reference 0 and the unit atoms at reference
1 are unchanged. -/
theorem c9_witness :
    hread (alignH ratSqrt 1 wHeap 0 1).2 0 = hread wHeap 0 ∧
    hread (makeLoopH ratSqrt (fun _ => 1) [(0, 0)] [(0, 1)] wHeap
        ([], 0)).2 1 = hread wHeap 1 :=
  ⟨(c9_no_input_mutation ratSqrt 1 (fun _ => 1) [(0, 0)]).1 wHeap 0 1 0
      (by decide),
   (c9_no_input_mutation ratSqrt 1 (fun _ => 1) [(0, 0)]).2 [(0, 1)] wHeap
      ([], 0) 1 (by decide)⟩

end Autografs
